import Mathlib

/-!
A shallow embedding of the `go-access` library (`access.go`), which checks
whether a *nix user (uid + group-id set) has a requested permission mode on a
filesystem path, resolving symlinks in user space.

Paths are modelled as `List Char` (byte strings with the *nix separator `/`).
The operating-system calls `os.Lstat` and `os.Readlink` are modelled as an
oracle (`Fs`) passed explicitly; Go `error` results become `Except` values.
Go machine integers: `uid` is a Go `int` (modelled as `Int`; the conversion
`uint32(uid)` is taken mod 2^32), `Stat_t.Uid`/`Gid` are `uint32` (modelled
as `Nat`).  `os.FileMode` is a 32-bit flag word modelled as `Nat` with the
same bit layout (`ModeDir` = bit 31, `ModeSymlink` = bit 27, permissions in
the low 9 bits).

The functions `Uid`/`Username` first consult the user database
(`user.LookupId`, `GroupIds`) and make the path absolute (`filepath.Abs`);
those collaborators are external to this package, so the engine `access` is
modelled from the point where the uid, the group-id list and the
absolute path are in hand (the code from `volLen := 0` onwards).
-/

set_option maxHeartbeats 1600000
set_option maxRecDepth 8000

namespace GoAccess

/-- `os.IsPathSeparator` on *nix: the separator is `/`. -/
def isSep (c : Char) : Bool := c = '/'

/-- `os.ModeDir` (bit 31 of `os.FileMode`). -/
def ModeDir : Nat := 2 ^ 31

/-- `os.ModeSymlink` (bit 27 of `os.FileMode`). -/
def ModeSymlink : Nat := 2 ^ 27

/-- The data `access.go` reads from one `os.Lstat` result: the full
`os.FileMode` word `fi.Mode()` and the owner uid/gid from the underlying
`syscall.Stat_t` (`uint32` values). -/
structure FileInfo where
  mode : Nat
  uid : Nat
  gid : Nat
  deriving Repr, DecidableEq

/-- The filesystem oracle: `os.Lstat` and `os.Readlink`, keyed by the exact
path string queried (so `/a` and `/a/` are distinct queries, as they are
distinct syscall arguments).  An `Except.error` carries the error message. -/
structure Fs where
  lstat : List Char → Except (List Char) FileInfo
  readlink : List Char → Except (List Char) (List Char)

/-- `access.PermissionError` (all fields as in the Go struct). -/
structure PermissionError where
  File : List Char
  FileMode : Nat
  FileUid : Int
  FileGid : Int
  Uid : Int
  Gid : List Int
  WantMode : Nat
  deriving Repr, DecidableEq

/-- The distinct error outcomes of `access`/`checkPath`:
`sys` is an `os.Lstat`/`os.Readlink` error passed through unchanged,
`perm` a `*PermissionError`, `noSlash` the internal
"absolute path not containing any slash" error, `notADirectory` is
`syscall.ENOTDIR`, `tooManyLinks` the "access: too many links" error. -/
inductive AccessError where
  | sys (msg : List Char)
  | perm (e : PermissionError)
  | noSlash (path : List Char)
  | notADirectory
  | tooManyLinks
  deriving Repr, DecidableEq

/-- `contains(a []int, i int) bool` from `access.go`. -/
def contains : List Int → Int → Bool
  | [], _ => false
  | e :: rest, i => if e = i then true else contains rest i

/-- Go's conversion `uint32(uid)` for `uid : int`: reduction mod 2^32. -/
def uint32OfInt (i : Int) : Nat := (i % (4294967296 : Int)).toNat

/-- The denial condition of `checkPath` (`access.go` line 124), verbatim:
`uid != 0 && fm&mode != mode && (fm&(mode<<6) != mode<<6 || uint32(uid) != s.Uid)
&& (fm&(mode<<3) != mode<<3 || !contains(gid, int(s.Gid)))`. -/
def denied (uid : Int) (gid : List Int) (mode fm : Nat) (suid sgid : Nat) : Bool :=
  decide (uid ≠ 0) && decide (fm &&& mode ≠ mode) &&
    (decide (fm &&& (mode <<< 6) ≠ mode <<< 6) || decide (uint32OfInt uid ≠ suid)) &&
    (decide (fm &&& (mode <<< 3) ≠ mode <<< 3) || !contains gid (Int.ofNat sgid))

/-- `strings.LastIndexFunc(path, r == os.PathSeparator)`: index of the last
separator, `none` when there is none (Go returns `-1`). -/
def lastIdxSep : List Char → Option Nat
  | [] => none
  | c :: rest =>
    match lastIdxSep rest with
    | some i => some (i + 1)
    | none => if isSep c then some 0 else none

theorem lastIdxSep_lt_length {l : List Char} {i : Nat} (h : lastIdxSep l = some i) :
    i < l.length := by
  induction l generalizing i with
  | nil => simp [lastIdxSep] at h
  | cons c rest ih =>
    simp only [lastIdxSep] at h
    cases hr : lastIdxSep rest with
    | some j =>
      rw [hr] at h
      cases h
      have := ih hr
      simp only [List.length_cons]
      omega
    | none =>
      rw [hr] at h
      by_cases hc : isSep c
      · simp [hc] at h
        cases h
        simp
      · simp [hc] at h

/-- `checkPath` (`access.go` lines 115-146): check `mode` on `path`, then
execute (`mode = 1`) on each successively shorter prefix obtained by cutting
at the last separator, stopping when the path is empty. -/
def checkPath (fs : Fs) (uid : Int) (gid : List Int) (mode : Nat) (path : List Char) :
    Except AccessError Unit :=
  if path = [] then .ok ()
  else
    match fs.lstat path with
    | .error e => .error (.sys e)
    | .ok fi =>
      if denied uid gid mode fi.mode fi.uid fi.gid then
        .error (.perm ⟨path, fi.mode, Int.ofNat fi.uid, Int.ofNat fi.gid, uid, gid, mode⟩)
      else
        match h : lastIdxSep path with
        | none => .error (.noSlash path)
        | some i => checkPath fs uid gid 1 (path.take i)
termination_by path.length
decreasing_by
  have hlt := lastIdxSep_lt_length h
  simp only [List.length_take]
  omega

/-- Go's `for start < len(path) && cond(path[start]) start++` index scans. -/
def skipWhileIdx (p : Char → Bool) (path : List Char) (i : Nat) : Nat :=
  if h : i < path.length then
    if p (path.get ⟨i, h⟩) then skipWhileIdx p path (i + 1) else i
  else i
termination_by path.length - i

theorem skipWhileIdx_ge (p : Char → Bool) (path : List Char) (i : Nat) :
    i ≤ skipWhileIdx p path i := by
  unfold skipWhileIdx
  split
  · split
    · have := skipWhileIdx_ge p path (i + 1)
      omega
    · exact Nat.le_refl i
  · exact Nat.le_refl i
termination_by path.length - i

/-- The `r` scan of `access.go` (lines 198-203 and 271-276): largest index
`r` with `volLen ≤ r < dest.length` holding a separator, `none` when the
scan runs below `volLen` (Go leaves `r < volLen`). -/
def lastSepGeAux (dest : List Char) (volLen : Nat) : Nat → Option Nat
  | 0 => none
  | r + 1 =>
    if volLen ≤ r then
      if isSep (dest.getD r ' ') then some r else lastSepGeAux dest volLen r
    else none

def lastSepGe (dest : List Char) (volLen : Nat) : Option Nat :=
  lastSepGeAux dest volLen dest.length

/-- The `..`-keeping branch of `access.go` (lines 208-212). -/
def keepDotDot (dest : List Char) (volLen : Nat) : List Char :=
  (if volLen < dest.length then dest ++ ['/'] else dest) ++ ['.', '.']

/-- The component-walk loop of `access` (`access.go` lines 177-284), with the
loop state made explicit: `path` is the working path (rewritten on symlink
substitution), `dest` the resolved prefix, `pos` the value of `start` at the
top of an iteration (Go's `start = end`), `links` the `linksWalked` counter.
Returns the fully resolved `dest` on normal loop exit. -/
def walk (fs : Fs) (uid : Int) (gi : List Int) (vol : List Char) (volLen : Nat)
    (path dest : List Char) (pos links : Nat) : Except AccessError (List Char) :=
  if hguard : pos < path.length then
    let start := skipWhileIdx isSep path pos
    let e := skipWhileIdx (fun c => !isSep c) path start
    if he : e = start then
      -- no more path components
      .ok dest
    else
      let comp := (path.drop start).take (e - start)
      if comp = ['.'] then
        walk fs uid gi vol volLen path dest e links
      else if comp = ['.', '.'] then
        let dest' :=
          match lastSepGe dest volLen with
          | none => keepDotDot dest volLen
          | some r =>
            if dest.drop (r + 1) = ['.', '.'] then keepDotDot dest volLen
            else dest.take r
        walk fs uid gi vol volLen path dest' e links
      else
        -- ordinary path component
        let dest1 := if isSep (dest.getLastD '/') then dest else dest ++ ['/']
        let l := dest1.length
        let dest2 := dest1 ++ comp
        match checkPath fs uid gi 1 (dest2.take l) with
        | .error err => .error err
        | .ok _ =>
          match fs.lstat dest2 with
          | .error er => .error (.sys er)
          | .ok fi =>
            if fi.mode &&& ModeSymlink = 0 then
              if fi.mode &&& ModeDir = 0 ∧ e < path.length then .error .notADirectory
              else walk fs uid gi vol volLen path dest2 e links
            else
              if h255 : links + 1 > 255 then .error .tooManyLinks
              else
                match fs.readlink dest2 with
                | .error er => .error (.sys er)
                | .ok link =>
                  let path' := link ++ path.drop e
                  if 0 < link.length ∧ isSep (link.headD ' ') then
                    walk fs uid gi vol volLen path' (link.take 1) 1 (links + 1)
                  else
                    let dest' :=
                      match lastSepGe dest2 volLen with
                      | none => vol
                      | some r => dest2.take r
                    walk fs uid gi vol volLen path' dest' 0 (links + 1)
  else .ok dest
termination_by (256 - links, path.length - pos)
decreasing_by
  · apply Prod.Lex.right
    have h1 := skipWhileIdx_ge isSep path pos
    have h2 := skipWhileIdx_ge (fun c => !isSep c) path start
    have hs : start = skipWhileIdx isSep path pos := rfl
    have hee : e = skipWhileIdx (fun c => !isSep c) path start := rfl
    have hb : skipWhileIdx (fun c => !isSep c) path start =
        skipWhileIdx (fun c => !isSep c) path (skipWhileIdx isSep path pos) := rfl
    omega
  · apply Prod.Lex.right
    have h1 := skipWhileIdx_ge isSep path pos
    have h2 := skipWhileIdx_ge (fun c => !isSep c) path start
    have hs : start = skipWhileIdx isSep path pos := rfl
    have hee : e = skipWhileIdx (fun c => !isSep c) path start := rfl
    have hb : skipWhileIdx (fun c => !isSep c) path start =
        skipWhileIdx (fun c => !isSep c) path (skipWhileIdx isSep path pos) := rfl
    omega
  · apply Prod.Lex.right
    have h1 := skipWhileIdx_ge isSep path pos
    have h2 := skipWhileIdx_ge (fun c => !isSep c) path start
    have hs : start = skipWhileIdx isSep path pos := rfl
    have hee : e = skipWhileIdx (fun c => !isSep c) path start := rfl
    have hb : skipWhileIdx (fun c => !isSep c) path start =
        skipWhileIdx (fun c => !isSep c) path (skipWhileIdx isSep path pos) := rfl
    omega
  · apply Prod.Lex.left
    omega
  · apply Prod.Lex.left
    omega

theorem length_takeWhile_add_dropWhile (p : Char → Bool) (l : List Char) :
    (l.takeWhile p).length + (l.dropWhile p).length = l.length := by
  conv_rhs => rw [← List.takeWhile_append_dropWhile (p := p) (l := l)]
  exact (List.length_append _ _).symm

/-- The walk loop again, reformulated on the unprocessed suffix
`path[pos:]` instead of the index `pos` (Go's loop state `(path, start)` is
the pair `(dest, suffix)` here).  `walk_eq_walkS` below proves this
reformulation equal to `walk`; the claim proofs then reason on `walkS`. -/
def walkS (fs : Fs) (uid : Int) (gi : List Int) (vol : List Char) (volLen : Nat)
    (suffix dest : List Char) (links : Nat) : Except AccessError (List Char) :=
  let s1 := suffix.dropWhile isSep
  let comp := s1.takeWhile (fun c => !isSep c)
  if hc : comp = [] then .ok dest
  else
    let rest := s1.drop comp.length
    if comp = ['.'] then
      walkS fs uid gi vol volLen rest dest links
    else if comp = ['.', '.'] then
      let dest' :=
        match lastSepGe dest volLen with
        | none => keepDotDot dest volLen
        | some r =>
          if dest.drop (r + 1) = ['.', '.'] then keepDotDot dest volLen
          else dest.take r
      walkS fs uid gi vol volLen rest dest' links
    else
      let dest1 := if isSep (dest.getLastD '/') then dest else dest ++ ['/']
      let l := dest1.length
      let dest2 := dest1 ++ comp
      match checkPath fs uid gi 1 (dest2.take l) with
      | .error err => .error err
      | .ok _ =>
        match fs.lstat dest2 with
        | .error er => .error (.sys er)
        | .ok fi =>
          if fi.mode &&& ModeSymlink = 0 then
            if fi.mode &&& ModeDir = 0 ∧ rest ≠ [] then .error .notADirectory
            else walkS fs uid gi vol volLen rest dest2 links
          else
            if h255 : links + 1 > 255 then .error .tooManyLinks
            else
              match fs.readlink dest2 with
              | .error er => .error (.sys er)
              | .ok link =>
                let path' := link ++ rest
                if 0 < link.length ∧ isSep (link.headD ' ') then
                  walkS fs uid gi vol volLen (path'.drop 1) (link.take 1) (links + 1)
                else
                  let dest' :=
                    match lastSepGe dest2 volLen with
                    | none => vol
                    | some r => dest2.take r
                  walkS fs uid gi vol volLen path' dest' (links + 1)
termination_by (256 - links, suffix.length)
decreasing_by
  · apply Prod.Lex.right
    have h1 := length_takeWhile_add_dropWhile isSep suffix
    have h2 := length_takeWhile_add_dropWhile (fun c => !isSep c) (suffix.dropWhile isSep)
    have h3 : comp.length ≠ 0 := by
      intro h0
      exact hc (List.eq_nil_of_length_eq_zero h0)
    have hcl : comp.length =
        (List.takeWhile (fun c => !isSep c) (List.dropWhile isSep suffix)).length := rfl
    simp only [List.length_drop]
    omega
  · apply Prod.Lex.right
    have h1 := length_takeWhile_add_dropWhile isSep suffix
    have h2 := length_takeWhile_add_dropWhile (fun c => !isSep c) (suffix.dropWhile isSep)
    have h3 : comp.length ≠ 0 := by
      intro h0
      exact hc (List.eq_nil_of_length_eq_zero h0)
    have hcl : comp.length =
        (List.takeWhile (fun c => !isSep c) (List.dropWhile isSep suffix)).length := rfl
    simp only [List.length_drop]
    omega
  · apply Prod.Lex.right
    have h1 := length_takeWhile_add_dropWhile isSep suffix
    have h2 := length_takeWhile_add_dropWhile (fun c => !isSep c) (suffix.dropWhile isSep)
    have h3 : comp.length ≠ 0 := by
      intro h0
      exact hc (List.eq_nil_of_length_eq_zero h0)
    have hcl : comp.length =
        (List.takeWhile (fun c => !isSep c) (List.dropWhile isSep suffix)).length := rfl
    simp only [List.length_drop]
    omega
  · apply Prod.Lex.left
    omega
  · apply Prod.Lex.left
    omega

theorem drop_length_takeWhile (p : Char → Bool) (l : List Char) :
    l.drop (l.takeWhile p).length = l.dropWhile p := by
  induction l with
  | nil => simp
  | cons c t ih =>
    by_cases hp : p c
    · simp [List.takeWhile_cons, List.dropWhile_cons, hp, ih]
    · simp [List.takeWhile_cons, List.dropWhile_cons, hp]

theorem take_length_takeWhile (p : Char → Bool) (l : List Char) :
    l.take (l.takeWhile p).length = l.takeWhile p := by
  induction l with
  | nil => simp
  | cons c t ih =>
    by_cases hp : p c
    · simp [List.takeWhile_cons, hp, ih]
    · simp [List.takeWhile_cons, hp]

theorem skipWhileIdx_eq (p : Char → Bool) (path : List Char) (i : Nat) :
    skipWhileIdx p path i = i + ((path.drop i).takeWhile p).length := by
  unfold skipWhileIdx
  split
  case isTrue h =>
    have hdrop : path.drop i = path.get ⟨i, h⟩ :: path.drop (i + 1) := by
      rw [List.drop_eq_getElem_cons h]
      simp [List.get_eq_getElem]
    rw [hdrop, List.takeWhile_cons]
    split
    case isTrue hp =>
      rw [skipWhileIdx_eq p path (i + 1)]
      simp only [hp, if_true, List.length_cons]
      omega
    case isFalse hp =>
      simp [hp]
  case isFalse h =>
    have hnil : path.drop i = [] := by
      rw [List.drop_eq_nil_iff]
      omega
    simp [hnil]
termination_by path.length - i

theorem skipWhileIdx_le_length (p : Char → Bool) (path : List Char) (i : Nat)
    (h : i ≤ path.length) : skipWhileIdx p path i ≤ path.length := by
  rw [skipWhileIdx_eq]
  have h1 := length_takeWhile_add_dropWhile p (path.drop i)
  simp only [List.length_drop] at h1
  omega

theorem drop_skipWhileIdx (p : Char → Bool) (path : List Char) (i : Nat) :
    path.drop (skipWhileIdx p path i) = (path.drop i).dropWhile p := by
  rw [skipWhileIdx_eq, ← List.drop_drop, drop_length_takeWhile]

/-- The engine `access` (`access.go` lines 148-292) from the point where the
group ids are resolved and the path made absolute: walk the components
resolving symlinks, then check the requested mode on the final path. -/
def access (fs : Fs) (uid : Int) (gi : List Int) (mode : Nat) (path : List Char) :
    Except AccessError Unit :=
  let volLen := if 0 < path.length ∧ isSep (path.headD ' ') then 1 else 0
  let vol := path.take volLen
  match walk fs uid gi vol volLen path vol volLen 0 with
  | .error e => .error e
  | .ok dest => checkPath fs uid gi mode dest


theorem bridge_drop_start (path : List Char) (pos : Nat) :
    path.drop (skipWhileIdx isSep path pos) = (path.drop pos).dropWhile isSep :=
  drop_skipWhileIdx isSep path pos

theorem bridge_e_eq (path : List Char) (pos : Nat) :
    skipWhileIdx (fun c => !isSep c) path (skipWhileIdx isSep path pos)
      = skipWhileIdx isSep path pos
        + (((path.drop pos).dropWhile isSep).takeWhile (fun c => !isSep c)).length := by
  rw [skipWhileIdx_eq (fun c => !isSep c) path (skipWhileIdx isSep path pos), bridge_drop_start]

theorem bridge_comp (path : List Char) (pos : Nat) :
    (path.drop (skipWhileIdx isSep path pos)).take
        (skipWhileIdx (fun c => !isSep c) path (skipWhileIdx isSep path pos)
          - skipWhileIdx isSep path pos)
      = ((path.drop pos).dropWhile isSep).takeWhile (fun c => !isSep c) := by
  rw [bridge_e_eq, bridge_drop_start, Nat.add_sub_cancel_left]
  exact take_length_takeWhile _ _

theorem bridge_rest (path : List Char) (pos : Nat) :
    path.drop (skipWhileIdx (fun c => !isSep c) path (skipWhileIdx isSep path pos))
      = ((path.drop pos).dropWhile isSep).drop
          (((path.drop pos).dropWhile isSep).takeWhile (fun c => !isSep c)).length := by
  rw [bridge_e_eq, ← List.drop_drop, bridge_drop_start]

theorem bridge_comp_empty (path : List Char) (pos : Nat) :
    (skipWhileIdx (fun c => !isSep c) path (skipWhileIdx isSep path pos)
        = skipWhileIdx isSep path pos)
      ↔ ((path.drop pos).dropWhile isSep).takeWhile (fun c => !isSep c) = [] := by
  rw [bridge_e_eq]
  constructor
  · intro hh
    exact List.eq_nil_of_length_eq_zero (by omega)
  · intro hh
    rw [hh]
    simp

theorem bridge_e_le (path : List Char) (pos : Nat) (h : pos ≤ path.length) :
    skipWhileIdx (fun c => !isSep c) path (skipWhileIdx isSep path pos) ≤ path.length :=
  skipWhileIdx_le_length _ _ _ (skipWhileIdx_le_length _ _ _ h)

theorem bridge_guard_iff (path : List Char) (pos : Nat) (h : pos ≤ path.length) :
    (skipWhileIdx (fun c => !isSep c) path (skipWhileIdx isSep path pos) < path.length)
      ↔ ((path.drop pos).dropWhile isSep).drop
          (((path.drop pos).dropWhile isSep).takeWhile (fun c => !isSep c)).length ≠ [] := by
  rw [← bridge_rest, Ne, List.drop_eq_nil_iff]
  have := bridge_e_le path pos h
  omega


set_option maxHeartbeats 2000000 in
theorem walk_eq_walkS (fs : Fs) (uid : Int) (gi : List Int) (vol : List Char) (volLen : Nat) :
    ∀ (path dest : List Char) (pos links : Nat),
    walk fs uid gi vol volLen path dest pos links =
      walkS fs uid gi vol volLen (path.drop pos) dest links := by
  refine walk.induct fs uid gi vol volLen
    (fun path dest pos links =>
      walk fs uid gi vol volLen path dest pos links =
        walkS fs uid gi vol volLen (path.drop pos) dest links)
    ?_ ?_ ?_ ?_ ?_ ?_ ?_ ?_ ?_ ?_ ?_ ?_
  · intro path dest pos links hguard start e he
    unfold_let start e at he
    rw [walk, dif_pos hguard, dif_pos he, walkS]
    rw [dif_pos ((bridge_comp_empty path pos).mp he)]
  · intro path dest pos links hguard start e hne comp hdot IH
    unfold_let start e at hne
    unfold_let start e comp at hdot
    rw [walk, dif_pos hguard, dif_neg hne, if_pos hdot, IH, bridge_rest]
    conv_rhs =>
      rw [walkS, dif_neg (fun hh => hne ((bridge_comp_empty path pos).mpr hh)),
        if_pos ((bridge_comp path pos).symm.trans hdot)]
  · intro path dest pos links hguard start e hne comp hndot hddot dest' IH
    unfold_let start e at hne
    unfold_let start e comp at hndot hddot
    rw [walk, dif_pos hguard, dif_neg hne, if_neg hndot, if_pos hddot]
    conv_rhs =>
      rw [walkS, dif_neg (fun hh => hne ((bridge_comp_empty path pos).mpr hh)),
        if_neg (fun hh => hndot ((bridge_comp path pos).trans hh)),
        if_pos ((bridge_comp path pos).symm.trans hddot)]
    unfold_let
    exact IH.trans (by rw [bridge_rest path pos]; rfl)
  · intro path dest pos links hguard start e hne comp hndot hnddot dest1 l dest2 err hchk
    unfold_let start e comp at hndot hnddot
    unfold_let dest2 l dest1 comp e start at hchk
    unfold_let dest1 comp e start at hchk
    unfold_let e start at hchk
    simp only [dite_eq_ite] at hchk
    rw [bridge_comp path pos] at hchk
    rw [walk, dif_pos hguard, dif_neg hne, if_neg hndot, if_neg hnddot, bridge_comp path pos]
    unfold_let
    simp only [hchk]
    conv_rhs =>
      rw [walkS, dif_neg (fun hh => hne ((bridge_comp_empty path pos).mpr hh)),
        if_neg (fun hh => hndot ((bridge_comp path pos).trans hh)),
        if_neg (fun hh => hnddot ((bridge_comp path pos).trans hh))]
      unfold_let
    simp only [hchk]
  · intro path dest pos links hguard start e hne comp hndot hnddot dest1 l dest2 a hchk er hlstat
    unfold_let start e comp at hndot hnddot
    unfold_let dest2 l dest1 comp e start at hchk hlstat
    unfold_let dest1 comp e start at hchk hlstat
    unfold_let e start at hchk hlstat
    simp only [dite_eq_ite] at hchk hlstat
    rw [bridge_comp path pos] at hchk hlstat
    rw [walk, dif_pos hguard, dif_neg hne, if_neg hndot, if_neg hnddot, bridge_comp path pos]
    unfold_let
    rw [hchk, hlstat]
    conv_rhs =>
      rw [walkS, dif_neg (fun hh => hne ((bridge_comp_empty path pos).mpr hh)),
        if_neg (fun hh => hndot ((bridge_comp path pos).trans hh)),
        if_neg (fun hh => hnddot ((bridge_comp path pos).trans hh))]
      unfold_let
      rw [hchk, hlstat]
  · intro path dest pos links hguard start e hne comp hndot hnddot dest1 l dest2 a hchk fi hlstat hsym hnd
    unfold_let start e comp at hndot hnddot
    unfold_let dest2 l dest1 comp e start at hchk hlstat
    unfold_let dest1 comp e start at hchk hlstat
    unfold_let e start at hchk hlstat
    unfold_let e start at hnd
    simp only [dite_eq_ite] at hchk hlstat
    rw [bridge_comp path pos] at hchk hlstat
    rw [walk, dif_pos hguard, dif_neg hne, if_neg hndot, if_neg hnddot, bridge_comp path pos]
    unfold_let
    conv_rhs =>
      rw [walkS, dif_neg (fun hh => hne ((bridge_comp_empty path pos).mpr hh)),
        if_neg (fun hh => hndot ((bridge_comp path pos).trans hh)),
        if_neg (fun hh => hnddot ((bridge_comp path pos).trans hh))]
      unfold_let
    simp only [← bridge_guard_iff path pos (Nat.le_of_lt hguard)]
    simp only [hchk, hlstat, hsym, hnd, and_self, if_true]
  · intro path dest pos links hguard start e hne comp hndot hnddot dest1 l dest2 a hchk fi hlstat hsym hnnd IH
    unfold_let start e comp at hndot hnddot
    unfold_let dest2 l dest1 comp e start at hchk hlstat IH
    unfold_let dest1 comp e start at hchk hlstat IH
    unfold_let e start at hchk hlstat IH
    unfold_let e start at hnnd
    simp only [dite_eq_ite] at hchk hlstat IH
    rw [bridge_comp path pos] at hchk hlstat IH
    rw [bridge_rest path pos] at IH
    rw [walk, dif_pos hguard, dif_neg hne, if_neg hndot, if_neg hnddot, bridge_comp path pos]
    unfold_let
    conv_rhs =>
      rw [walkS, dif_neg (fun hh => hne ((bridge_comp_empty path pos).mpr hh)),
        if_neg (fun hh => hndot ((bridge_comp path pos).trans hh)),
        if_neg (fun hh => hnddot ((bridge_comp path pos).trans hh))]
      unfold_let
    simp only [← bridge_guard_iff path pos (Nat.le_of_lt hguard)]
    simp only [hchk, hlstat, hsym, hnnd, if_false, if_true, IH]
  · intro path dest pos links hguard start e hne comp hndot hnddot dest1 l dest2 a hchk fi hlstat hsym h255
    unfold_let start e comp at hndot hnddot
    unfold_let dest2 l dest1 comp e start at hchk hlstat
    unfold_let dest1 comp e start at hchk hlstat
    unfold_let e start at hchk hlstat
    simp only [dite_eq_ite] at hchk hlstat
    rw [bridge_comp path pos] at hchk hlstat
    rw [walk, dif_pos hguard, dif_neg hne, if_neg hndot, if_neg hnddot, bridge_comp path pos]
    unfold_let
    conv_rhs =>
      rw [walkS, dif_neg (fun hh => hne ((bridge_comp_empty path pos).mpr hh)),
        if_neg (fun hh => hndot ((bridge_comp path pos).trans hh)),
        if_neg (fun hh => hnddot ((bridge_comp path pos).trans hh))]
      unfold_let
    simp only [hchk, hlstat, hsym, if_false, dif_pos h255]
  · intro path dest pos links hguard start e hne comp hndot hnddot dest1 l dest2 a hchk fi hlstat hsym h255 er hrl
    unfold_let start e comp at hndot hnddot
    unfold_let dest2 l dest1 comp e start at hchk hlstat hrl
    unfold_let dest1 comp e start at hchk hlstat hrl
    unfold_let e start at hchk hlstat hrl
    simp only [dite_eq_ite] at hchk hlstat hrl
    rw [bridge_comp path pos] at hchk hlstat hrl
    rw [walk, dif_pos hguard, dif_neg hne, if_neg hndot, if_neg hnddot, bridge_comp path pos]
    unfold_let
    conv_rhs =>
      rw [walkS, dif_neg (fun hh => hne ((bridge_comp_empty path pos).mpr hh)),
        if_neg (fun hh => hndot ((bridge_comp path pos).trans hh)),
        if_neg (fun hh => hnddot ((bridge_comp path pos).trans hh))]
      unfold_let
    simp only [hchk, hlstat, hsym, if_false, dif_neg h255, hrl]
  · intro path dest pos links hguard start e hne comp hndot hnddot dest1 l dest2 a hchk fi hlstat hsym h255 link hrl path' habs IH
    unfold_let start e comp at hndot hnddot
    unfold_let dest2 l dest1 comp e start at hchk hlstat hrl
    unfold_let dest1 comp e start at hchk hlstat hrl
    unfold_let e start at hchk hlstat hrl
    unfold_let path' e start at IH
    unfold_let e start at IH
    simp only [dite_eq_ite] at hchk hlstat hrl
    rw [bridge_comp path pos] at hchk hlstat hrl
    rw [bridge_rest path pos] at IH
    rw [walk, dif_pos hguard, dif_neg hne, if_neg hndot, if_neg hnddot, bridge_comp path pos]
    unfold_let
    rw [bridge_rest path pos]
    conv_rhs =>
      rw [walkS, dif_neg (fun hh => hne ((bridge_comp_empty path pos).mpr hh)),
        if_neg (fun hh => hndot ((bridge_comp path pos).trans hh)),
        if_neg (fun hh => hnddot ((bridge_comp path pos).trans hh))]
      unfold_let
    simp only [hchk, hlstat, hsym, if_false, dif_neg h255, hrl, habs, and_self, if_true, IH]
  · intro path dest pos links hguard start e hne comp hndot hnddot dest1 l dest2 a hchk fi hlstat hsym h255 link hrl path' hnabs dest' IH
    unfold_let start e comp at hndot hnddot
    unfold_let dest2 l dest1 comp e start at hchk hlstat hrl
    unfold_let dest1 comp e start at hchk hlstat hrl
    unfold_let e start at hchk hlstat hrl
    unfold_let dest' path' dest2 l dest1 comp e start at IH
    unfold_let dest1 comp e start at IH
    unfold_let e start at IH
    simp only [dite_eq_ite] at hchk hlstat hrl IH
    rw [bridge_comp path pos] at hchk hlstat hrl IH
    rw [bridge_rest path pos] at IH
    rw [walk, dif_pos hguard, dif_neg hne, if_neg hndot, if_neg hnddot, bridge_comp path pos]
    unfold_let
    rw [bridge_rest path pos]
    conv_rhs =>
      rw [walkS, dif_neg (fun hh => hne ((bridge_comp_empty path pos).mpr hh)),
        if_neg (fun hh => hndot ((bridge_comp path pos).trans hh)),
        if_neg (fun hh => hnddot ((bridge_comp path pos).trans hh))]
      unfold_let
    simp only [hchk, hlstat, hsym, if_false, dif_neg h255, hrl, hnabs, IH, List.drop_zero]
  · intro path dest pos links hguard
    have hnil : path.drop pos = [] := List.drop_eq_nil_iff.mpr (by omega)
    rw [walk, dif_neg hguard, hnil, walkS, dif_pos (by simp)]


/-- `access` on an absolute path, with the walk loop expressed through
`walkS`: on *nix an absolute path starts with the separator, so `volLen = 1`
and `vol = "/"`. -/
theorem access_slash (fs : Fs) (uid : Int) (gi : List Int) (mode : Nat) (t : List Char) :
    access fs uid gi mode ('/' :: t) =
      match walkS fs uid gi ['/'] 1 t ['/'] 0 with
      | .error e => .error e
      | .ok dest => checkPath fs uid gi mode dest := by
  unfold access
  have hc : (0 < ('/' :: t).length ∧ isSep (('/' :: t).headD ' ') = true) := by
    constructor
    · simp
    · rfl
  unfold_let
  rw [if_pos hc, walk_eq_walkS]
  rfl

/-- One iteration of the `checkPath` loop on a single path: the `os.Lstat`
call and the permission test (`access.go` lines 117-134), without the
stripping to the parent. -/
def checkOne (fs : Fs) (uid : Int) (gid : List Int) (mode : Nat) (p : List Char) :
    Except AccessError Unit :=
  match fs.lstat p with
  | .error e => .error (.sys e)
  | .ok fi =>
    if denied uid gid mode fi.mode fi.uid fi.gid then
      .error (.perm ⟨p, fi.mode, Int.ofNat fi.uid, Int.ofNat fi.gid, uid, gid, mode⟩)
    else .ok ()

/-- The single-node grant predicate: the lstat succeeds and the permission
bits admit the principal (the negation of the `checkPath` denial test). -/
def nodeOkB (fs : Fs) (uid : Int) (gid : List Int) (mode : Nat) (p : List Char) : Bool :=
  match fs.lstat p with
  | .error _ => false
  | .ok fi => !denied uid gid mode fi.mode fi.uid fi.gid

theorem checkOne_ok_iff (fs : Fs) (uid : Int) (gid : List Int) (mode : Nat) (p : List Char) :
    checkOne fs uid gid mode p = .ok () ↔ nodeOkB fs uid gid mode p = true := by
  unfold checkOne nodeOkB
  cases fs.lstat p with
  | error e => simp
  | ok fi =>
    by_cases hd : denied uid gid mode fi.mode fi.uid fi.gid
    · simp [hd]
    · simp [hd]


theorem except_cases (x : Except AccessError Unit) :
    (∃ e, x = .error e) ∨ x = .ok () := by
  cases x with
  | error e => exact Or.inl ⟨e, rfl⟩
  | ok v =>
    cases v
    exact Or.inr rfl

theorem exceptFi_cases (x : Except (List Char) FileInfo) :
    (∃ e, x = .error e) ∨ (∃ fi, x = .ok fi) := by
  cases x with
  | error e => exact Or.inl ⟨e, rfl⟩
  | ok fi => exact Or.inr ⟨fi, rfl⟩

theorem checkPath_nil (fs : Fs) (u : Int) (g : List Int) (m : Nat) :
    checkPath fs u g m [] = .ok () := by
  rw [checkPath]
  simp

theorem checkPath_step (fs : Fs) (u : Int) (g : List Int) (m : Nat) (p : List Char)
    (hp : p ≠ []) :
    checkPath fs u g m p =
      match checkOne fs u g m p with
      | .error e => .error e
      | .ok _ =>
        match lastIdxSep p with
        | none => .error (.noSlash p)
        | some i => checkPath fs u g 1 (p.take i) := by
  rw [checkPath, if_neg hp]
  unfold checkOne
  cases fs.lstat p with
  | error e => rfl
  | ok fi =>
    by_cases hd : denied u g m fi.mode fi.uid fi.gid = true
    · simp only [hd, if_true]
    · simp only [hd, Bool.false_eq_true, if_false]
      cases hL : lastIdxSep p with
      | none => rfl
      | some i => rfl

/-- Fuel-indexed version of the walk loop: identical branch structure to
`walk`, with one unit of fuel consumed per loop iteration; `none` means the
fuel ran out. -/
def walkF (fs : Fs) (uid : Int) (gi : List Int) (vol : List Char) (volLen : Nat) :
    Nat → List Char → List Char → Nat → Nat → Option (Except AccessError (List Char))
  | 0, _, _, _, _ => none
  | fuel + 1, path, dest, pos, links =>
    if hguard : pos < path.length then
      let start := skipWhileIdx isSep path pos
      let e := skipWhileIdx (fun c => !isSep c) path start
      if he : e = start then
        some (.ok dest)
      else
        let comp := (path.drop start).take (e - start)
        if comp = ['.'] then
          walkF fs uid gi vol volLen fuel path dest e links
        else if comp = ['.', '.'] then
          let dest' :=
            match lastSepGe dest volLen with
            | none => keepDotDot dest volLen
            | some r =>
              if dest.drop (r + 1) = ['.', '.'] then keepDotDot dest volLen
              else dest.take r
          walkF fs uid gi vol volLen fuel path dest' e links
        else
          let dest1 := if isSep (dest.getLastD '/') then dest else dest ++ ['/']
          let l := dest1.length
          let dest2 := dest1 ++ comp
          match checkPath fs uid gi 1 (dest2.take l) with
          | .error err => some (.error err)
          | .ok _ =>
            match fs.lstat dest2 with
            | .error er => some (.error (.sys er))
            | .ok fi =>
              if fi.mode &&& ModeSymlink = 0 then
                if fi.mode &&& ModeDir = 0 ∧ e < path.length then
                  some (.error .notADirectory)
                else walkF fs uid gi vol volLen fuel path dest2 e links
              else
                if h255 : links + 1 > 255 then some (.error .tooManyLinks)
                else
                  match fs.readlink dest2 with
                  | .error er => some (.error (.sys er))
                  | .ok link =>
                    let path' := link ++ path.drop e
                    if 0 < link.length ∧ isSep (link.headD ' ') then
                      walkF fs uid gi vol volLen fuel path' (link.take 1) 1 (links + 1)
                    else
                      let dest' :=
                        match lastSepGe dest2 volLen with
                        | none => vol
                        | some r => dest2.take r
                      walkF fs uid gi vol volLen fuel path' dest' 0 (links + 1)
    else some (.ok dest)

/-- Fuel-indexed version of `checkPath` (one unit of fuel per
strip-to-parent step); `none` means the fuel ran out. -/
def checkPathF (fs : Fs) (uid : Int) (gid : List Int) :
    Nat → Nat → List Char → Option (Except AccessError Unit)
  | 0, _, _ => none
  | fuel + 1, mode, path =>
    if path = [] then some (.ok ())
    else
      match checkOne fs uid gid mode path with
      | .error e => some (.error e)
      | .ok _ =>
        match lastIdxSep path with
        | none => some (.error (.noSlash path))
        | some i => checkPathF fs uid gid fuel 1 (path.take i)

theorem checkPathF_sound (fs : Fs) (uid : Int) (gid : List Int) :
    ∀ (fuel mode : Nat) (path : List Char) (r : Except AccessError Unit),
      checkPathF fs uid gid fuel mode path = some r →
      checkPath fs uid gid mode path = r := by
  intro fuel
  induction fuel with
  | zero =>
    intro mode path r h
    exact absurd h (by simp [checkPathF])
  | succ fuel ih =>
    intro mode path r h
    by_cases hp : path = []
    · rw [checkPathF, if_pos hp] at h
      rw [hp, checkPath_nil]
      exact Option.some.inj h
    · rw [checkPathF, if_neg hp] at h
      rw [checkPath_step fs uid gid mode path hp]
      rcases except_cases (checkOne fs uid gid mode path) with ⟨e, hco⟩ | hco
      · simp only [hco] at h ⊢
        exact Option.some.inj h
      · simp only [hco] at h ⊢
        cases hli : lastIdxSep path with
        | none =>
          simp only [hli] at h ⊢
          exact Option.some.inj h
        | some i =>
          simp only [hli] at h ⊢
          exact ih 1 (path.take i) r h

/-- A fully executable fuel-indexed walk: the branch structure of `walkS`,
with one unit of fuel per iteration and the per-component prefix permission
check performed by the fuel-indexed `checkPathF` (sequenced with
`Option.bind`), so that the whole function evaluates by reduction on
concrete inputs. -/
def walkES (fs : Fs) (uid : Int) (gi : List Int) (vol : List Char) (volLen : Nat) :
    Nat → List Char → List Char → Nat → Option (Except AccessError (List Char))
  | 0, _, _, _ => none
  | fuel + 1, suffix, dest, links =>
    let s1 := suffix.dropWhile isSep
    let comp := s1.takeWhile (fun c => !isSep c)
    if comp = [] then some (.ok dest)
    else
      let rest := s1.drop comp.length
      if comp = ['.'] then
        walkES fs uid gi vol volLen fuel rest dest links
      else if comp = ['.', '.'] then
        let dest' :=
          match lastSepGe dest volLen with
          | none => keepDotDot dest volLen
          | some r =>
            if dest.drop (r + 1) = ['.', '.'] then keepDotDot dest volLen
            else dest.take r
        walkES fs uid gi vol volLen fuel rest dest' links
      else
        let dest1 := if isSep (dest.getLastD '/') then dest else dest ++ ['/']
        let l := dest1.length
        let dest2 := dest1 ++ comp
        (checkPathF fs uid gi fuel 1 (dest2.take l)).bind fun cr =>
          match cr with
          | .error err => some (.error err)
          | .ok _ =>
            match fs.lstat dest2 with
            | .error er => some (.error (.sys er))
            | .ok fi =>
              if fi.mode &&& ModeSymlink = 0 then
                if fi.mode &&& ModeDir = 0 ∧ rest ≠ [] then some (.error .notADirectory)
                else walkES fs uid gi vol volLen fuel rest dest2 links
              else
                if links + 1 > 255 then some (.error .tooManyLinks)
                else
                  match fs.readlink dest2 with
                  | .error er => some (.error (.sys er))
                  | .ok link =>
                    let path' := link ++ rest
                    if 0 < link.length ∧ isSep (link.headD ' ') then
                      walkES fs uid gi vol volLen fuel (path'.drop 1) (link.take 1)
                        (links + 1)
                    else
                      let dest' :=
                        match lastSepGe dest2 volLen with
                        | none => vol
                        | some r => dest2.take r
                      walkES fs uid gi vol volLen fuel path' dest' (links + 1)

/-- Soundness of the executable walk: whenever it completes within its
fuel, its answer is the answer of the suffix-form loop `walkS`. -/
theorem walkES_sound (fs : Fs) (uid : Int) (gi : List Int) (vol : List Char)
    (volLen : Nat) :
    ∀ (suffix dest : List Char) (links : Nat) (n : Nat)
      (r : Except AccessError (List Char)),
      walkES fs uid gi vol volLen n suffix dest links = some r →
      walkS fs uid gi vol volLen suffix dest links = r := by
  refine walkS.induct fs uid gi vol volLen
    (fun suffix dest links =>
      ∀ (n : Nat) (r : Except AccessError (List Char)),
        walkES fs uid gi vol volLen n suffix dest links = some r →
        walkS fs uid gi vol volLen suffix dest links = r)
    ?_ ?_ ?_ ?_ ?_ ?_ ?_ ?_ ?_ ?_ ?_
  · intro suffix dest links s1 comp hc
    intro n r h
    cases n with
    | zero => exact absurd h (by simp [walkES])
    | succ n =>
      unfold_let comp s1 at hc
      rw [walkES, if_pos hc] at h
      rw [walkS, dif_pos hc]
      exact Option.some.inj h
  · intro suffix dest links s1 comp hc rest hdot IH
    intro n r h
    cases n with
    | zero => exact absurd h (by simp [walkES])
    | succ n =>
      unfold_let comp s1 at hc hdot
      unfold_let s1 at hc hdot
      rw [walkES, if_neg hc, if_pos hdot] at h
      rw [walkS, dif_neg hc, if_pos hdot]
      exact IH n r h
  · intro suffix dest links s1 comp hc rest hndot hddot dest' IH
    intro n r h
    cases n with
    | zero => exact absurd h (by simp [walkES])
    | succ n =>
      unfold_let comp s1 at hc hndot hddot
      unfold_let s1 at hc hndot hddot
      rw [walkES, if_neg hc, if_neg hndot, if_pos hddot] at h
      rw [walkS, dif_neg hc, if_neg hndot, if_pos hddot]
      unfold_let
      unfold_let at h
      exact IH n r h
  · intro suffix dest links s1 comp hc hndot hnddot dest1 l dest2 err hchk
    intro n r h
    cases n with
    | zero => exact absurd h (by simp [walkES])
    | succ n =>
      unfold_let comp s1 at hc hndot hnddot
      unfold_let s1 at hc hndot hnddot
      unfold_let dest2 l dest1 comp s1 at hchk
      unfold_let dest1 comp s1 at hchk
      unfold_let comp s1 at hchk
      unfold_let s1 at hchk
      simp only [dite_eq_ite] at hchk
      rw [walkS, dif_neg hc, if_neg hndot, if_neg hnddot]
      unfold_let
      simp only [hchk]
      rw [walkES, if_neg hc, if_neg hndot, if_neg hnddot] at h
      unfold_let at h
      rw [Option.bind_eq_some] at h
      obtain ⟨cr, hcf, h⟩ := h
      have hcr := checkPathF_sound fs uid gi n 1 _ cr hcf
      rw [hchk] at hcr
      subst hcr
      exact Option.some.inj h
  · intro suffix dest links s1 comp hc hndot hnddot dest1 l dest2 a hchk e hlstat
    intro n r h
    cases n with
    | zero => exact absurd h (by simp [walkES])
    | succ n =>
      unfold_let comp s1 at hc hndot hnddot
      unfold_let s1 at hc hndot hnddot
      unfold_let dest2 l dest1 comp s1 at hchk hlstat
      unfold_let dest1 comp s1 at hchk hlstat
      unfold_let comp s1 at hchk hlstat
      unfold_let s1 at hchk hlstat
      simp only [dite_eq_ite] at hchk hlstat
      rw [walkS, dif_neg hc, if_neg hndot, if_neg hnddot]
      unfold_let
      simp only [hchk, hlstat]
      rw [walkES, if_neg hc, if_neg hndot, if_neg hnddot] at h
      unfold_let at h
      rw [Option.bind_eq_some] at h
      obtain ⟨cr, hcf, h⟩ := h
      have hcr := checkPathF_sound fs uid gi n 1 _ cr hcf
      rw [hchk] at hcr
      subst hcr
      simp only [hlstat] at h
      exact Option.some.inj h
  · intro suffix dest links s1 comp hc rest hndot hnddot dest1 l dest2 a hchk fi hlstat hsym hnd
    intro n r h
    cases n with
    | zero => exact absurd h (by simp [walkES])
    | succ n =>
      unfold_let comp s1 at hc hndot hnddot
      unfold_let s1 at hc hndot hnddot
      unfold_let dest2 l dest1 comp s1 at hchk hlstat
      unfold_let dest1 comp s1 at hchk hlstat
      unfold_let comp s1 at hchk hlstat
      unfold_let s1 at hchk hlstat
      unfold_let rest comp s1 at hnd
      unfold_let comp s1 at hnd
      unfold_let s1 at hnd
      obtain ⟨hnd1, hnd2⟩ := hnd
      simp only [dite_eq_ite] at hchk hlstat
      rw [walkS, dif_neg hc, if_neg hndot, if_neg hnddot]
      unfold_let
      simp only [hchk, hlstat, hsym, hnd1, ne_eq, hnd2, not_false_eq_true, and_self,
        if_true]
      rw [walkES, if_neg hc, if_neg hndot, if_neg hnddot] at h
      unfold_let at h
      rw [Option.bind_eq_some] at h
      obtain ⟨cr, hcf, h⟩ := h
      have hcr := checkPathF_sound fs uid gi n 1 _ cr hcf
      rw [hchk] at hcr
      subst hcr
      simp only [hlstat, hsym, hnd1, ne_eq, hnd2, not_false_eq_true, and_self,
        if_true] at h
      exact Option.some.inj h
  · intro suffix dest links s1 comp hc rest hndot hnddot dest1 l dest2 a hchk fi hlstat hsym hnnd IH
    intro n r h
    cases n with
    | zero => exact absurd h (by simp [walkES])
    | succ n =>
      unfold_let comp s1 at hc hndot hnddot
      unfold_let s1 at hc hndot hnddot
      unfold_let dest2 l dest1 comp s1 at hchk hlstat
      unfold_let dest1 comp s1 at hchk hlstat
      unfold_let comp s1 at hchk hlstat
      unfold_let s1 at hchk hlstat
      unfold_let rest comp s1 at hnnd
      unfold_let comp s1 at hnnd
      unfold_let s1 at hnnd
      simp only [dite_eq_ite] at hchk hlstat
      rw [walkS, dif_neg hc, if_neg hndot, if_neg hnddot]
      unfold_let
      simp only [hchk, hlstat, hsym, hnnd, if_false, if_true]
      rw [walkES, if_neg hc, if_neg hndot, if_neg hnddot] at h
      unfold_let at h
      rw [Option.bind_eq_some] at h
      obtain ⟨cr, hcf, h⟩ := h
      have hcr := checkPathF_sound fs uid gi n 1 _ cr hcf
      rw [hchk] at hcr
      subst hcr
      simp only [hlstat, hsym, hnnd, if_false, if_true] at h
      exact IH n r h
  · intro suffix dest links s1 comp hc hndot hnddot dest1 l dest2 a hchk fi hlstat hsym h255
    intro n r h
    cases n with
    | zero => exact absurd h (by simp [walkES])
    | succ n =>
      unfold_let comp s1 at hc hndot hnddot
      unfold_let s1 at hc hndot hnddot
      unfold_let dest2 l dest1 comp s1 at hchk hlstat
      unfold_let dest1 comp s1 at hchk hlstat
      unfold_let comp s1 at hchk hlstat
      unfold_let s1 at hchk hlstat
      simp only [dite_eq_ite] at hchk hlstat
      rw [walkS, dif_neg hc, if_neg hndot, if_neg hnddot]
      unfold_let
      simp only [hchk, hlstat, hsym, if_false, dif_pos h255]
      rw [walkES, if_neg hc, if_neg hndot, if_neg hnddot] at h
      unfold_let at h
      rw [Option.bind_eq_some] at h
      obtain ⟨cr, hcf, h⟩ := h
      have hcr := checkPathF_sound fs uid gi n 1 _ cr hcf
      rw [hchk] at hcr
      subst hcr
      simp only [hlstat, hsym, if_false, if_pos h255] at h
      exact Option.some.inj h
  · intro suffix dest links s1 comp hc hndot hnddot dest1 l dest2 a hchk fi hlstat hsym h255 er hrl
    intro n r h
    cases n with
    | zero => exact absurd h (by simp [walkES])
    | succ n =>
      unfold_let comp s1 at hc hndot hnddot
      unfold_let s1 at hc hndot hnddot
      unfold_let dest2 l dest1 comp s1 at hchk hlstat hrl
      unfold_let dest1 comp s1 at hchk hlstat hrl
      unfold_let comp s1 at hchk hlstat hrl
      unfold_let s1 at hchk hlstat hrl
      simp only [dite_eq_ite] at hchk hlstat hrl
      rw [walkS, dif_neg hc, if_neg hndot, if_neg hnddot]
      unfold_let
      simp only [hchk, hlstat, hsym, if_false, dif_neg h255, hrl]
      rw [walkES, if_neg hc, if_neg hndot, if_neg hnddot] at h
      unfold_let at h
      rw [Option.bind_eq_some] at h
      obtain ⟨cr, hcf, h⟩ := h
      have hcr := checkPathF_sound fs uid gi n 1 _ cr hcf
      rw [hchk] at hcr
      subst hcr
      simp only [hlstat, hsym, if_false, if_neg h255, hrl] at h
      exact Option.some.inj h
  · intro suffix dest links s1 comp hc rest hndot hnddot dest1 l dest2 a hchk fi hlstat hsym h255 link hrl path' habs IH
    intro n r h
    cases n with
    | zero => exact absurd h (by simp [walkES])
    | succ n =>
      unfold_let comp s1 at hc hndot hnddot
      unfold_let s1 at hc hndot hnddot
      unfold_let dest2 l dest1 comp s1 at hchk hlstat hrl
      unfold_let dest1 comp s1 at hchk hlstat hrl
      unfold_let comp s1 at hchk hlstat hrl
      unfold_let s1 at hchk hlstat hrl
      simp only [dite_eq_ite] at hchk hlstat hrl
      rw [walkS, dif_neg hc, if_neg hndot, if_neg hnddot]
      unfold_let
      simp only [hchk, hlstat, hsym, if_false, dif_neg h255, hrl, habs, and_self, if_true]
      rw [walkES, if_neg hc, if_neg hndot, if_neg hnddot] at h
      unfold_let at h
      rw [Option.bind_eq_some] at h
      obtain ⟨cr, hcf, h⟩ := h
      have hcr := checkPathF_sound fs uid gi n 1 _ cr hcf
      rw [hchk] at hcr
      subst hcr
      simp only [hlstat, hsym, if_false, if_neg h255, hrl, habs, and_self, if_true] at h
      exact IH n r h
  · intro suffix dest links s1 comp hc rest hndot hnddot dest1 l dest2 a hchk fi hlstat hsym h255 link hrl path' hnabs dest' IH
    intro n r h
    cases n with
    | zero => exact absurd h (by simp [walkES])
    | succ n =>
      unfold_let comp s1 at hc hndot hnddot
      unfold_let s1 at hc hndot hnddot
      unfold_let dest2 l dest1 comp s1 at hchk hlstat hrl
      unfold_let dest1 comp s1 at hchk hlstat hrl
      unfold_let comp s1 at hchk hlstat hrl
      unfold_let s1 at hchk hlstat hrl
      simp only [dite_eq_ite] at hchk hlstat hrl
      rw [walkS, dif_neg hc, if_neg hndot, if_neg hnddot]
      unfold_let
      simp only [hchk, hlstat, hsym, if_false, dif_neg h255, hrl, hnabs]
      rw [walkES, if_neg hc, if_neg hndot, if_neg hnddot] at h
      unfold_let at h
      rw [Option.bind_eq_some] at h
      obtain ⟨cr, hcf, h⟩ := h
      have hcr := checkPathF_sound fs uid gi n 1 _ cr hcf
      rw [hchk] at hcr
      subst hcr
      simp only [hlstat, hsym, if_false, if_neg h255, hrl, hnabs] at h
      exact IH n r h

/-- Fuel-indexed version of `access`: the fuel-indexed walk followed by the
fuel-indexed final `checkPath`. -/
def accessF (fs : Fs) (uid : Int) (gi : List Int) (mode : Nat) (path : List Char)
    (fuel : Nat) : Option (Except AccessError Unit) :=
  let volLen := if 0 < path.length ∧ isSep (path.headD ' ') then 1 else 0
  let vol := path.take volLen
  match walkES fs uid gi vol volLen fuel (path.drop volLen) vol 0 with
  | none => none
  | some (.error e) => some (.error e)
  | some (.ok dest) => checkPathF fs uid gi fuel mode dest

theorem accessF_sound_aux (fs : Fs) (uid : Int) (gi : List Int) (mode : Nat)
    (vol : List Char) (volLen : Nat) (path : List Char) (fuel : Nat)
    (r : Except AccessError Unit) :
    (match walkES fs uid gi vol volLen fuel (path.drop volLen) vol 0 with
      | none => none
      | some (.error e) => some (.error e)
      | some (.ok dest) => checkPathF fs uid gi fuel mode dest) = some r →
    (match walk fs uid gi vol volLen path vol volLen 0 with
      | .error e => .error e
      | .ok dest => checkPath fs uid gi mode dest) = r := by
  intro h
  rw [walk_eq_walkS]
  cases hw : walkES fs uid gi vol volLen fuel (path.drop volLen) vol 0 with
  | none =>
    rw [hw] at h
    exact absurd h (by simp)
  | some v =>
    cases v with
    | error e =>
      simp only [hw] at h
      have hwalk := walkES_sound fs uid gi vol volLen (path.drop volLen) vol 0 fuel (.error e) hw
      simp only [hwalk]
      exact Option.some.inj h
    | ok dest =>
      simp only [hw] at h
      have hwalk := walkES_sound fs uid gi vol volLen (path.drop volLen) vol 0 fuel (.ok dest) hw
      simp only [hwalk]
      exact checkPathF_sound fs uid gi fuel mode dest r h

/-- Soundness of the fuel-indexed engine: a completed fuel-indexed run
computes `access`. -/
theorem accessF_sound (fs : Fs) (uid : Int) (gi : List Int) (mode : Nat)
    (path : List Char) (fuel : Nat) (r : Except AccessError Unit)
    (h : accessF fs uid gi mode path fuel = some r) :
    access fs uid gi mode path = r := by
  unfold accessF at h
  unfold access
  exact accessF_sound_aux fs uid gi mode
    (path.take (if 0 < path.length ∧ isSep (path.headD ' ') = true then 1 else 0))
    (if 0 < path.length ∧ isSep (path.headD ' ') = true then 1 else 0) path fuel r h

/-- The absolute path `/c1/c2/.../cn` built from a list of components. -/
def joinPath : List (List Char) → List Char
  | [] => []
  | c :: rest => '/' :: (c ++ joinPath rest)

/-- A clean path component: nonempty, separator-free, not `.` and not `..`. -/
def goodComp (c : List Char) : Prop :=
  c ≠ [] ∧ '/' ∉ c ∧ c ≠ ['.'] ∧ c ≠ ['.', '.']

theorem joinPath_append (cs ds : List (List Char)) :
    joinPath (cs ++ ds) = joinPath cs ++ joinPath ds := by
  induction cs with
  | nil => simp [joinPath]
  | cons c rest ih => simp [joinPath, ih]

theorem joinPath_ne_nil {cs : List (List Char)} (h : cs ≠ []) : joinPath cs ≠ [] := by
  cases cs with
  | nil => exact absurd rfl h
  | cons c rest => simp [joinPath]

theorem isSep_iff (c : Char) : isSep c = true ↔ c = '/' := by
  simp [isSep]

theorem lastIdxSep_eq_none_iff (l : List Char) : lastIdxSep l = none ↔ '/' ∉ l := by
  induction l with
  | nil => simp [lastIdxSep]
  | cons c rest ih =>
    simp only [lastIdxSep]
    cases hr : lastIdxSep rest with
    | some i =>
      simp only [List.mem_cons]
      constructor
      · intro h
        cases h
      · intro h
        exfalso
        have h2 : '/' ∉ rest := fun hm => h (Or.inr hm)
        rw [ih.mpr h2] at hr
        cases hr
    | none =>
      have h2 : '/' ∉ rest := ih.mp hr
      by_cases hc : isSep c = true
      · have hcc : c = '/' := (isSep_iff c).mp hc
        simp [hcc, isSep]
      · have hcc : ¬c = '/' := fun hh => hc ((isSep_iff c).mpr hh)
        simp only [hc, if_false, List.mem_cons]
        constructor
        · intro _ h
          rcases h with h | h
          · exact hcc h.symm
          · exact h2 h
        · intro _
          rfl

theorem lastIdxSep_append_some (l1 l2 : List Char) (i : Nat) (h : lastIdxSep l2 = some i) :
    lastIdxSep (l1 ++ l2) = some (l1.length + i) := by
  induction l1 with
  | nil => simpa using h
  | cons c t ih =>
    simp only [List.cons_append, lastIdxSep, List.append_eq, ih, List.length_cons]
    congr 1
    omega

theorem lastIdxSep_slash_comp (c : List Char) (h : '/' ∉ c) :
    lastIdxSep ('/' :: c) = some 0 := by
  simp only [lastIdxSep]
  rw [(lastIdxSep_eq_none_iff c).mpr h]
  simp [isSep]

theorem checkPath_root (fs : Fs) (u : Int) (g : List Int) (m : Nat) :
    checkPath fs u g m ['/'] = checkOne fs u g m ['/'] := by
  rw [checkPath_step fs u g m ['/'] (by simp)]
  have h : lastIdxSep ['/'] = some 0 := by
    simp [lastIdxSep, isSep]
  rw [h]
  cases hc : checkOne fs u g m ['/'] with
  | error e => rfl
  | ok a =>
    cases a
    simp only [List.take_zero, checkPath_nil]

theorem joinPath_snoc (cs : List (List Char)) (c : List Char) :
    joinPath (cs ++ [c]) = joinPath cs ++ '/' :: c := by
  rw [joinPath_append]
  simp [joinPath]

theorem checkPath_snoc (fs : Fs) (u : Int) (g : List Int) (m : Nat)
    (cs : List (List Char)) (c : List Char) (hc : '/' ∉ c) :
    checkPath fs u g m (joinPath (cs ++ [c])) =
      match checkOne fs u g m (joinPath (cs ++ [c])) with
      | .error e => .error e
      | .ok _ => checkPath fs u g 1 (joinPath cs) := by
  have hj : joinPath (cs ++ [c]) = joinPath cs ++ '/' :: c := joinPath_snoc cs c
  have hne : joinPath (cs ++ [c]) ≠ [] := by
    rw [hj]
    simp
  rw [checkPath_step fs u g m _ hne]
  have hl : lastIdxSep (joinPath (cs ++ [c])) = some (joinPath cs).length := by
    rw [hj, lastIdxSep_append_some (joinPath cs) ('/' :: c) 0 (lastIdxSep_slash_comp c hc)]
    simp
  have ht : (joinPath (cs ++ [c])).take (joinPath cs).length = joinPath cs := by
    rw [hj, List.take_left]
  rw [hl]
  cases hk : checkOne fs u g m (joinPath (cs ++ [c])) with
  | error e => rfl
  | ok a =>
    cases a
    simp only [ht]

theorem checkPath_slash (fs : Fs) (u : Int) (g : List Int) (m : Nat) (q : List Char) :
    checkPath fs u g m (q ++ ['/']) =
      match checkOne fs u g m (q ++ ['/']) with
      | .error e => .error e
      | .ok _ => checkPath fs u g 1 q := by
  rw [checkPath_step fs u g m _ (by simp)]
  have hl : lastIdxSep (q ++ ['/']) = some q.length := by
    have h0 : lastIdxSep ['/'] = some 0 := by
      simp [lastIdxSep, isSep]
    have := lastIdxSep_append_some q ['/'] 0 h0
    simpa using this
  rw [hl]
  cases hk : checkOne fs u g m (q ++ ['/']) with
  | error e => rfl
  | ok a =>
    cases a
    simp only [List.take_left]

theorem joinPath_eq_nil_iff (cs : List (List Char)) : joinPath cs = [] ↔ cs = [] := by
  cases cs with
  | nil => simp [joinPath]
  | cons c rest => simp [joinPath]

theorem dropWhile_joinPath_cons (c : List Char) (more : List (List Char))
    (hc1 : c ≠ []) (hc2 : '/' ∉ c) :
    (joinPath (c :: more)).dropWhile isSep = c ++ joinPath more := by
  show (('/' :: (c ++ joinPath more)).dropWhile isSep) = c ++ joinPath more
  rw [List.dropWhile_cons]
  have hsl : isSep '/' = true := by
    simp [isSep]
  rw [if_pos hsl]
  cases c with
  | nil => exact absurd rfl hc1
  | cons ch ct =>
    have hch : ¬isSep ch = true := by
      intro hh
      exact hc2 (by rw [List.mem_cons]; exact Or.inl ((isSep_iff ch).mp hh).symm)
    rw [List.cons_append, List.dropWhile_cons, if_neg hch]

theorem takeWhile_comp_joinPath (c : List Char) (more : List (List Char)) (hc2 : '/' ∉ c) :
    (c ++ joinPath more).takeWhile (fun x => !isSep x) = c := by
  induction c with
  | nil =>
    cases more with
    | nil => simp [joinPath]
    | cons d rest =>
      show (('/' :: (d ++ joinPath rest)).takeWhile fun x => !isSep x) = []
      rw [List.takeWhile_cons]
      simp [isSep]
  | cons ch ct ih =>
    have hch : ch ≠ '/' := by
      intro hh
      exact hc2 (by rw [List.mem_cons]; exact Or.inl hh.symm)
    have hm : '/' ∉ ct := fun hmem => hc2 (by rw [List.mem_cons]; exact Or.inr hmem)
    rw [List.cons_append, List.takeWhile_cons]
    have : (!isSep ch) = true := by
      simp [isSep, hch]
    rw [if_pos this, ih hm]

/-- `walkS` on a clean (ordinary, separator-free) head component: the
parent-prefix permission check, the lstat of the appended path, and the
directory/symlink dispatch. -/
theorem walkS_step_comp (fs : Fs) (u : Int) (g : List Int) (vol : List Char) (volLen : Nat)
    (dest : List Char) (links : Nat) (c : List Char) (more : List (List Char))
    (hc1 : c ≠ []) (hc2 : '/' ∉ c) (hc3 : c ≠ ['.']) (hc4 : c ≠ ['.', '.']) :
    walkS fs u g vol volLen (joinPath (c :: more)) dest links =
      (let dest1 := if isSep (dest.getLastD '/') then dest else dest ++ ['/']
       match checkPath fs u g 1 dest1 with
       | .error err => .error err
       | .ok _ =>
         match fs.lstat (dest1 ++ c) with
         | .error er => .error (.sys er)
         | .ok fi =>
           if fi.mode &&& ModeSymlink = 0 then
             if fi.mode &&& ModeDir = 0 ∧ more ≠ [] then .error .notADirectory
             else walkS fs u g vol volLen (joinPath more) (dest1 ++ c) links
           else
             if links + 1 > 255 then .error .tooManyLinks
             else
               match fs.readlink (dest1 ++ c) with
               | .error er => .error (.sys er)
               | .ok link =>
                 if 0 < link.length ∧ isSep (link.headD ' ') then
                   walkS fs u g vol volLen ((link ++ joinPath more).drop 1) (link.take 1)
                     (links + 1)
                 else
                   walkS fs u g vol volLen (link ++ joinPath more)
                     (match lastSepGe (dest1 ++ c) volLen with
                      | none => vol
                      | some r => (dest1 ++ c).take r) (links + 1)) := by
  rw [walkS]
  unfold_let
  rw [dropWhile_joinPath_cons c more hc1 hc2, takeWhile_comp_joinPath c more hc2]
  rw [dif_neg hc1, if_neg hc3, if_neg hc4, List.drop_left, List.take_left]
  simp only [ne_eq, joinPath_eq_nil_iff, dite_eq_ite]

theorem denied_eq_false_iff (uid : Int) (gid : List Int) (mode fm : Nat) (suid sgid : Nat)
    (hu : uid ≠ 0) :
    denied uid gid mode fm suid sgid = false ↔
      ((fm &&& (mode <<< 6) = mode <<< 6 ∧ uint32OfInt uid = suid) ∨
       (fm &&& (mode <<< 3) = mode <<< 3 ∧ contains gid (Int.ofNat sgid) = true) ∨
       fm &&& mode = mode) := by
  unfold denied
  by_cases h1 : fm &&& mode = mode <;>
    by_cases h2 : fm &&& (mode <<< 6) = mode <<< 6 <;>
      by_cases h3 : uint32OfInt uid = suid <;>
        by_cases h4 : fm &&& (mode <<< 3) = mode <<< 3 <;>
          by_cases h5 : contains gid (Int.ofNat sgid) = true <;>
            simp [h1, h2, h3, h4, h5, hu]

theorem denied_uid0 (g : List Int) (m fm suid sgid : Nat) :
    denied 0 g m fm suid sgid = false := by
  simp [denied]

theorem checkPath_uid0_shape (fs : Fs) (g : List Int) : ∀ (m : Nat) (p : List Char),
    checkPath fs 0 g m p = .ok () ∨ (∃ e, checkPath fs 0 g m p = .error (.sys e)) ∨
      (∃ q, checkPath fs 0 g m p = .error (.noSlash q)) := by
  refine checkPath.induct fs 0 g
    (fun m p => checkPath fs 0 g m p = .ok () ∨
      (∃ e, checkPath fs 0 g m p = .error (.sys e)) ∨
      (∃ q, checkPath fs 0 g m p = .error (.noSlash q))) ?_ ?_ ?_ ?_ ?_
  · intro m
    left
    exact checkPath_nil fs 0 g m
  · intro m p hp e hlstat
    right
    left
    refine ⟨e, ?_⟩
    rw [checkPath_step fs 0 g m p hp]
    simp [checkOne, hlstat]
  · intro m p hp fi hlstat hden
    rw [denied_uid0] at hden
    cases hden
  · intro m p hp fi hlstat hden hlast
    right
    right
    refine ⟨p, ?_⟩
    rw [checkPath_step fs 0 g m p hp]
    simp [checkOne, hlstat, hden, hlast]
  · intro m p hp fi hlstat hden i hlast ih
    have hstep : checkPath fs 0 g m p = checkPath fs 0 g 1 (p.take i) := by
      rw [checkPath_step fs 0 g m p hp]
      simp [checkOne, hlstat, hden, hlast]
    rw [hstep]
    exact ih

theorem checkPath_lstat_error (fs : Fs) (u : Int) (g : List Int) (m : Nat) (p : List Char)
    (e : List Char) (hp : p ≠ []) (hl : fs.lstat p = .error e) :
    checkPath fs u g m p = .error (.sys e) := by
  rw [checkPath_step fs u g m p hp]
  simp [checkOne, hl]

theorem checkPath_head_denied (fs : Fs) (u : Int) (g : List Int) (m : Nat) (p : List Char)
    (fi : FileInfo) (hp : p ≠ []) (hl : fs.lstat p = .ok fi)
    (hd : denied u g m fi.mode fi.uid fi.gid = true) :
    checkPath fs u g m p =
      .error (.perm ⟨p, fi.mode, Int.ofNat fi.uid, Int.ofNat fi.gid, u, g, m⟩) := by
  rw [checkPath_step fs u g m p hp]
  simp [checkOne, hl, hd]

theorem checkPath_perm_wantMode (fs : Fs) (u : Int) (g : List Int) :
    ∀ (m : Nat) (p : List Char) (pe : PermissionError),
      checkPath fs u g m p = .error (.perm pe) → pe.WantMode = m ∨ pe.WantMode = 1 := by
  refine checkPath.induct fs u g
    (fun m p => ∀ pe, checkPath fs u g m p = .error (.perm pe) →
      pe.WantMode = m ∨ pe.WantMode = 1) ?_ ?_ ?_ ?_ ?_
  · intro m pe h
    rw [checkPath_nil] at h
    cases h
  · intro m p hp e hlstat pe h
    rw [checkPath_lstat_error fs u g m p e hp hlstat] at h
    cases h
  · intro m p hp fi hlstat hden pe h
    rw [checkPath_head_denied fs u g m p fi hp hlstat hden] at h
    cases h
    left
    rfl
  · intro m p hp fi hlstat hden hlast pe h
    rw [checkPath_step fs u g m p hp] at h
    simp [checkOne, hlstat, hden, hlast] at h
  · intro m p hp fi hlstat hden i hlast ih pe h
    have hstep : checkPath fs u g m p = checkPath fs u g 1 (p.take i) := by
      rw [checkPath_step fs u g m p hp]
      simp [checkOne, hlstat, hden, hlast]
    rw [hstep] at h
    rcases ih pe h with h1 | h1
    · right
      exact h1
    · right
      exact h1

/-- C2 counterexample filesystem: the single file `/f` has permission bits
all zero; every other query fails. -/
def cexC2 : Fs where
  lstat p := if p = ['/', 'f'] then .ok ⟨0, 0, 0⟩ else .error ['n']
  readlink _ := .error ['n']

/-- Claim C2, as stated, is false: for the principal uid 0 the check
succeeds on a mode-0 file even though no owner/group/other bit test holds
(`access.go` line 124 guards the whole test with `uid != 0`). -/
theorem claim2_counterexample :
    checkPath cexC2 0 [] 4 ['/', 'f'] = .ok () ∧
      ¬(((0 : Nat) &&& (4 <<< 6) = 4 <<< 6 ∧ uint32OfInt 0 = 0) ∨
        ((0 : Nat) &&& (4 <<< 3) = 4 <<< 3 ∧ contains [] (Int.ofNat 0) = true) ∨
        (0 : Nat) &&& 4 = 4) := by
  constructor
  · have h1 : checkPath cexC2 0 [] 4 ['/', 'f'] = checkPath cexC2 0 [] 1 [] := by
      rw [checkPath_step cexC2 0 [] 4 ['/', 'f'] (by simp)]
      simp [checkOne, cexC2, denied, lastIdxSep, isSep]
    rw [h1, checkPath_nil]
  · decide

/-- C2 amended: the permission test is skipped for uid 0 (a uid-0 check
never produces a `PermissionError`), but every metadata query is still
performed (an lstat failure still aborts the check with that error). -/
theorem claim2_theorem :
    (∀ (fs : Fs) (g : List Int) (m : Nat) (p : List Char),
      checkPath fs 0 g m p = .ok () ∨ (∃ e, checkPath fs 0 g m p = .error (.sys e)) ∨
        (∃ q, checkPath fs 0 g m p = .error (.noSlash q))) ∧
    (∀ (fs : Fs) (g : List Int) (m : Nat) (p : List Char) (e : List Char),
      p ≠ [] → fs.lstat p = .error e → checkPath fs 0 g m p = .error (.sys e)) := by
  constructor
  · intro fs g m p
    exact checkPath_uid0_shape fs g m p
  · intro fs g m p e hp hl
    exact checkPath_lstat_error fs 0 g m p e hp hl

theorem claim2_witness :
    checkPath cexC2 0 [] 4 ['/', 'x'] = .error (.sys ['n']) :=
  claim2_theorem.2 cexC2 [] 4 ['/', 'x'] ['n'] (by simp) rfl

/-- C4 counterexample filesystem. -/
def cexC4 : Fs where
  lstat p := if p = ['/', 'g'] then .ok ⟨0, 7, 7⟩ else .error ['n']
  readlink _ := .error ['n']

/-- Claim C4, as stated, is false for the superuser: uid 0 is granted
access to a mode-0 file though no clause of the owner/group/other test
holds. -/
theorem claim4_counterexample :
    checkPath cexC4 0 [] 4 ['/', 'g'] = .ok () ∧
      ¬(((0 : Nat) &&& (4 <<< 6) = 4 <<< 6 ∧ uint32OfInt 0 = 7) ∨
        ((0 : Nat) &&& (4 <<< 3) = 4 <<< 3 ∧ contains [] (Int.ofNat 7) = true) ∨
        (0 : Nat) &&& 4 = 4) := by
  constructor
  · have h1 : checkPath cexC4 0 [] 4 ['/', 'g'] = checkPath cexC4 0 [] 1 [] := by
      rw [checkPath_step cexC4 0 [] 4 ['/', 'g'] (by simp)]
      simp [checkOne, cexC4, denied, lastIdxSep, isSep]
    rw [h1, checkPath_nil]
  · decide

/-- C4 amended (restricted to principals with `uid ≠ 0`): the component
check grants access iff the owner clause, the group clause, or the other
clause holds; a failing head check returns a `PermissionError` carrying the
path, file mode, file uid/gid, principal uid, principal gids and the wanted
mode; and every `PermissionError` the recursion produces wants either the
originally requested mode (final component) or execute-only (ancestors). -/
theorem claim4_theorem :
    (∀ (uid : Int) (gid : List Int) (mode fm suid sgid : Nat), uid ≠ 0 →
      (denied uid gid mode fm suid sgid = false ↔
        ((fm &&& (mode <<< 6) = mode <<< 6 ∧ uint32OfInt uid = suid) ∨
         (fm &&& (mode <<< 3) = mode <<< 3 ∧ contains gid (Int.ofNat sgid) = true) ∨
         fm &&& mode = mode))) ∧
    (∀ (fs : Fs) (uid : Int) (gid : List Int) (m : Nat) (p : List Char) (fi : FileInfo),
      p ≠ [] → fs.lstat p = .ok fi → denied uid gid m fi.mode fi.uid fi.gid = true →
      checkPath fs uid gid m p =
        .error (.perm ⟨p, fi.mode, Int.ofNat fi.uid, Int.ofNat fi.gid, uid, gid, m⟩)) ∧
    (∀ (fs : Fs) (uid : Int) (gid : List Int) (m : Nat) (p : List Char)
        (pe : PermissionError),
      checkPath fs uid gid m p = .error (.perm pe) → pe.WantMode = m ∨ pe.WantMode = 1) := by
  refine ⟨?_, ?_, ?_⟩
  · intro uid gid mode fm suid sgid hu
    exact denied_eq_false_iff uid gid mode fm suid sgid hu
  · intro fs uid gid m p fi hp hl hd
    exact checkPath_head_denied fs uid gid m p fi hp hl hd
  · intro fs uid gid m p pe h
    exact checkPath_perm_wantMode fs uid gid m p pe h

theorem claim4_witness :
    checkPath cexC4 1 [] 4 ['/', 'g'] =
      .error (.perm ⟨['/', 'g'], 0, 7, 7, 1, [], 4⟩) :=
  claim4_theorem.2.1 cexC4 1 [] 4 ['/', 'g'] ⟨0, 7, 7⟩ (by simp) rfl (by decide)

theorem walkS_nil (fs : Fs) (u : Int) (g : List Int) (vol : List Char) (volLen : Nat)
    (dest : List Char) (links : Nat) :
    walkS fs u g vol volLen [] dest links = .ok dest := by
  rw [walkS]
  simp

/-- `walkS` only reads the suffix through `dropWhile isSep`, so a leading
separator is transparent. -/
theorem walkS_dropSlash (fs : Fs) (u : Int) (g : List Int) (vol : List Char) (volLen : Nat)
    (S dest : List Char) (links : Nat) :
    walkS fs u g vol volLen ('/' :: S) dest links = walkS fs u g vol volLen S dest links := by
  rw [walkS]
  conv_rhs => rw [walkS]
  have h : ('/' :: S).dropWhile isSep = S.dropWhile isSep := by
    rw [List.dropWhile_cons]
    simp [isSep]
  rw [h]

/-- `walkS` on a `..` head component: pure lexical backup of `dest`, no
filesystem query (`access.go` lines 192-217). -/
theorem walkS_step_dotdot (fs : Fs) (u : Int) (g : List Int) (vol : List Char) (volLen : Nat)
    (dest : List Char) (links : Nat) (more : List (List Char)) :
    walkS fs u g vol volLen (joinPath (['.', '.'] :: more)) dest links =
      walkS fs u g vol volLen (joinPath more)
        (match lastSepGe dest volLen with
         | none => keepDotDot dest volLen
         | some r =>
           if dest.drop (r + 1) = ['.', '.'] then keepDotDot dest volLen
           else dest.take r) links := by
  rw [walkS]
  unfold_let
  rw [dropWhile_joinPath_cons ['.', '.'] more (by simp) (by simp),
    takeWhile_comp_joinPath ['.', '.'] more (by simp)]
  rw [dif_neg (by simp), if_neg (by simp), if_pos rfl, List.drop_left]

/-- C5 counterexample filesystem: `/a` is a symlink to `..`. -/
def cexC5 : Fs where
  lstat p :=
    if p = ['/'] then .ok ⟨1, 0, 0⟩
    else if p = ['/', 'a'] then .ok ⟨ModeSymlink, 0, 0⟩
    else if p = ['/', '.', '.'] then .ok ⟨0, 5, 5⟩
    else .error ['n']
  readlink p := if p = ['/', 'a'] then .ok ['.', '.'] else .error ['n']

/-- Claim C5, as stated, is false: a `..` arising from a symlink target
while the resolved prefix is at the root leaves `dest = "/.."`, and the
final permission check runs on that path — the denial record names the
file `/..`, a prefix containing a `..` component. -/
theorem claim5_counterexample :
    access cexC5 1 [] 4 ['/', 'a'] =
      .error (.perm ⟨['/', '.', '.'], 0, 5, 5, 1, [], 4⟩) := by
  rw [access_slash]
  have h1 : walkS cexC5 1 [] ['/'] 1 ['a'] ['/'] 0 =
      walkS cexC5 1 [] ['/'] 1 (joinPath [['a']]) ['/'] 0 :=
    (walkS_dropSlash cexC5 1 [] ['/'] 1 ['a'] ['/'] 0).symm
  rw [h1, walkS_step_comp cexC5 1 [] ['/'] 1 ['/'] 0 ['a'] []
    (by simp) (by simp) (by simp) (by simp)]
  unfold_let
  have hroot : checkPath cexC5 1 [] 1 (if isSep (List.getLastD ['/'] '/') = true
      then ['/'] else ['/'] ++ ['/']) = .ok () := by
    have h : (if isSep (List.getLastD ['/'] '/') = true then ['/'] else ['/'] ++ ['/'])
        = (['/'] : List Char) := by
      decide
    rw [h, checkPath_root]
    rfl
  have hlst : cexC5.lstat ((if isSep (List.getLastD ['/'] '/') = true
      then ['/'] else ['/'] ++ ['/']) ++ ['a']) = .ok ⟨ModeSymlink, 0, 0⟩ := by
    rfl
  simp only [hroot, hlst]
  have hsym : ¬(ModeSymlink &&& ModeSymlink = 0) := by
    decide
  rw [if_neg hsym, if_neg (by decide : ¬((0 : Nat) + 1 > 255))]
  have hrl : cexC5.readlink ((if isSep (List.getLastD ['/'] '/') = true
      then ['/'] else ['/'] ++ ['/']) ++ ['a']) = .ok ['.', '.'] := by
    rfl
  simp only [hrl]
  rw [if_neg (by decide : ¬(0 < (['.', '.'] : List Char).length ∧
    isSep ((['.', '.'] : List Char).headD ' ') = true))]
  have hback : (match lastSepGe ((if isSep (List.getLastD ['/'] '/') = true
      then ['/'] else ['/'] ++ ['/']) ++ ['a']) 1 with
      | none => (['/'] : List Char)
      | some r => ((if isSep (List.getLastD ['/'] '/') = true
          then ['/'] else ['/'] ++ ['/']) ++ ['a']).take r) = (['/'] : List Char) := by
    decide
  rw [hback]
  have h2 : walkS cexC5 1 [] ['/'] 1 (['.', '.'] ++ joinPath []) ['/'] (0 + 1) =
      walkS cexC5 1 [] ['/'] 1 (joinPath [['.', '.']]) ['/'] (0 + 1) :=
    (walkS_dropSlash cexC5 1 [] ['/'] 1 (['.', '.'] ++ joinPath []) ['/'] (0 + 1)).symm
  rw [h2, walkS_step_dotdot]
  have hback2 : (match lastSepGe ['/'] 1 with
      | none => keepDotDot ['/'] 1
      | some r =>
        if List.drop (r + 1) ['/'] = ['.', '.'] then keepDotDot ['/'] 1
        else List.take r ['/']) = (['/', '.', '.'] : List Char) := by
    decide
  rw [hback2]
  simp only [joinPath, walkS_nil]
  rw [checkPath_step cexC5 1 [] 4 ['/', '.', '.'] (by simp)]
  have hone : checkOne cexC5 1 [] 4 ['/', '.', '.'] =
      .error (.perm ⟨['/', '.', '.'], 0, 5, 5, 1, [], 4⟩) := by
    rfl
  simp only [hone]

/-- C5 amended: when the resolved prefix is at the root, a `..` component is
not a no-op — it appends a literal `..`, turning `dest` into `/..`, so a
later permission check can target a path containing `..`. -/
theorem claim5_theorem (fs : Fs) (u : Int) (g : List Int) (links : Nat)
    (more : List (List Char)) :
    walkS fs u g ['/'] 1 (joinPath (['.', '.'] :: more)) ['/'] links =
      walkS fs u g ['/'] 1 (joinPath more) ['/', '.', '.'] links := by
  rw [walkS_step_dotdot]
  have h : (match lastSepGe ['/'] 1 with
      | none => keepDotDot ['/'] 1
      | some r =>
        if List.drop (r + 1) ['/'] = ['.', '.'] then keepDotDot ['/'] 1
        else List.take r ['/']) = (['/', '.', '.'] : List Char) := by
    decide
  rw [h]

/-- C8: whenever the walk meets an ordinary component whose metadata says
neither symlink nor directory while more of the path remains, it fails with
`syscall.ENOTDIR` (`access.go` lines 243-248). -/
theorem claim8_theorem (fs : Fs) (u : Int) (g : List Int) (vol : List Char) (volLen : Nat)
    (dest : List Char) (links : Nat) (c : List Char) (more : List (List Char))
    (fi : FileInfo) (hc1 : c ≠ []) (hc2 : '/' ∉ c) (hc3 : c ≠ ['.'])
    (hc4 : c ≠ ['.', '.']) (hmore : more ≠ [])
    (hchk : checkPath fs u g 1
      (if isSep (dest.getLastD '/') = true then dest else dest ++ ['/']) = .ok ())
    (hlstat : fs.lstat
      ((if isSep (dest.getLastD '/') = true then dest else dest ++ ['/']) ++ c) = .ok fi)
    (hsym : fi.mode &&& ModeSymlink = 0) (hdir : fi.mode &&& ModeDir = 0) :
    walkS fs u g vol volLen (joinPath (c :: more)) dest links = .error .notADirectory := by
  rw [walkS_step_comp fs u g vol volLen dest links c more hc1 hc2 hc3 hc4]
  unfold_let
  simp only [hchk, hlstat]
  rw [if_pos hsym, if_pos ⟨hdir, hmore⟩]

/-- C8 witness filesystem: `/f` is a regular file, `/f/x` is requested. -/
def cexC8 : Fs where
  lstat p :=
    if p = ['/'] then .ok ⟨1, 0, 0⟩
    else if p = ['/', 'f'] then .ok ⟨4, 0, 0⟩
    else .error ['n']
  readlink _ := .error ['n']

theorem claim8_witness :
    access cexC8 1 [] 4 ['/', 'f', '/', 'x'] = .error .notADirectory := by
  rw [access_slash]
  have h1 : walkS cexC8 1 [] ['/'] 1 ['f', '/', 'x'] ['/'] 0 =
      walkS cexC8 1 [] ['/'] 1 (joinPath [['f'], ['x']]) ['/'] 0 :=
    (walkS_dropSlash cexC8 1 [] ['/'] 1 ['f', '/', 'x'] ['/'] 0).symm
  rw [h1, claim8_theorem cexC8 1 [] ['/'] 1 ['/'] 0 ['f'] [['x']] ⟨4, 0, 0⟩
    (by simp) (by simp) (by simp) (by simp) (by simp)
    (by rw [show (if isSep (List.getLastD ['/'] '/') = true then ['/']
          else ['/'] ++ ['/']) = (['/'] : List Char) from by decide, checkPath_root]
        rfl)
    rfl (by decide) (by decide)]

/-- C3 counterexample filesystem: the root itself carries no permission
bits for uid 1. -/
def cexC3 : Fs where
  lstat p :=
    if p = ['/'] then .ok ⟨0, 5, 5⟩
    else if p = ['/', 'f'] then .ok ⟨7, 0, 0⟩
    else .error ['n']
  readlink _ := .error ['n']

/-- Claim C3, as stated, is false: processing the very first component
performs the execute check on the root `/` itself (the pre-append prefix),
not on the appended path — the denial record names `/`. -/
theorem claim3_counterexample :
    access cexC3 1 [] 4 ['/', 'f'] = .error (.perm ⟨['/'], 0, 5, 5, 1, [], 1⟩) :=
  accessF_sound cexC3 1 [] 4 ['/', 'f'] 20 _ (by rfl)

/-- C3(b) filesystem: `/d/a` is a symlink whose permission bits are all
zero and whose owner is neither the principal nor in its groups. -/
def cexC3b : Fs where
  lstat p :=
    if p = ['/'] then .ok ⟨1, 0, 0⟩
    else if p = ['/', 'd'] then .ok ⟨ModeDir + 1, 0, 0⟩
    else if p = ['/', 'd', '/'] then .ok ⟨ModeDir + 1, 0, 0⟩
    else if p = ['/', 'd', '/', 'a'] then .ok ⟨ModeSymlink, 5, 5⟩
    else if p = ['/', 't'] then .ok ⟨4, 0, 0⟩
    else .error ['n']
  readlink p := if p = ['/', 'd', '/', 'a'] then .ok ['/', 't'] else .error ['n']

/-- C3 amended: the per-component execute check targets the resolved prefix
as it stood before appending the component — for the first component that
prefix is the root/volume itself, so a root whose bits deny execute makes
`access` fail with a denial naming the root; and a traversed symlink node
itself is never permission-checked (a symlink with zero permission bits is
traversed successfully). -/
theorem claim3_theorem :
    (∀ (fs : Fs) (u : Int) (g : List Int) (mode : Nat) (c : List Char)
        (more : List (List Char)) (er : AccessError),
      c ≠ [] → '/' ∉ c → c ≠ ['.'] → c ≠ ['.', '.'] →
      checkPath fs u g 1 ['/'] = .error er →
      access fs u g mode (joinPath (c :: more)) = .error er) ∧
    access cexC3b 1 [] 4 ['/', 'd', '/', 'a'] = .ok () := by
  constructor
  · intro fs u g mode c more er hc1 hc2 hc3 hc4 her
    show access fs u g mode ('/' :: (c ++ joinPath more)) = .error er
    rw [access_slash]
    have h1 : walkS fs u g ['/'] 1 (c ++ joinPath more) ['/'] 0 =
        walkS fs u g ['/'] 1 (joinPath (c :: more)) ['/'] 0 :=
      (walkS_dropSlash fs u g ['/'] 1 (c ++ joinPath more) ['/'] 0).symm
    rw [h1, walkS_step_comp fs u g ['/'] 1 ['/'] 0 c more hc1 hc2 hc3 hc4]
    unfold_let
    have hpre : (if isSep (List.getLastD ['/'] '/') = true then ['/'] else ['/'] ++ ['/'])
        = (['/'] : List Char) := by
      decide
    rw [hpre, her]
  · exact accessF_sound cexC3b 1 [] 4 ['/', 'd', '/', 'a'] 20 (.ok ()) (by rfl)

theorem claim3_witness :
    access cexC3 1 [] 7 (joinPath [['f']]) = .error (.perm ⟨['/'], 0, 5, 5, 1, [], 1⟩) := by
  refine claim3_theorem.1 cexC3 1 [] 7 ['f'] [] _ (by simp) (by simp) (by simp) (by simp) ?_
  rw [checkPath_root]
  rfl

/-- C10(c) filesystem: the directory `/a` answers its own lstat, but the
re-query `/a/` made during the next component's check fails (modelling
metadata that changed between the two queries). -/
def cexC10 : Fs where
  lstat p :=
    if p = ['/'] then .ok ⟨1, 0, 0⟩
    else if p = ['/', 'a'] then .ok ⟨ModeDir + 1, 0, 0⟩
    else if p = ['/', 'a', '/', 'b'] then .ok ⟨4, 0, 0⟩
    else .error ['g']
  readlink _ := .error ['n']

/-- C10: `checkPath` checks the given mode on the path itself and then
execute on each ancestor prefix, with a fresh lstat for each (the
`checkOne` step); the walk re-runs `checkPath` on the pre-append prefix for
every ordinary component, so an ancestor's metadata error surfaces during a
later component's check — concretely, `/a/b` fails with the error of the
re-query `/a/` even though the earlier query of `/a` succeeded. -/
theorem claim10_theorem :
    (∀ (fs : Fs) (u : Int) (g : List Int) (m : Nat) (cs : List (List Char)) (c : List Char),
      '/' ∉ c →
      checkPath fs u g m (joinPath (cs ++ [c])) =
        match checkOne fs u g m (joinPath (cs ++ [c])) with
        | .error e => .error e
        | .ok _ => checkPath fs u g 1 (joinPath cs)) ∧
    (∀ (fs : Fs) (u : Int) (g : List Int) (vol : List Char) (volLen : Nat)
        (dest : List Char) (links : Nat) (c : List Char) (more : List (List Char))
        (er : AccessError),
      c ≠ [] → '/' ∉ c → c ≠ ['.'] → c ≠ ['.', '.'] →
      checkPath fs u g 1
        (if isSep (dest.getLastD '/') = true then dest else dest ++ ['/']) = .error er →
      walkS fs u g vol volLen (joinPath (c :: more)) dest links = .error er) ∧
    access cexC10 1 [] 4 ['/', 'a', '/', 'b'] = .error (.sys ['g']) := by
  refine ⟨?_, ?_, ?_⟩
  · intro fs u g m cs c hc
    exact checkPath_snoc fs u g m cs c hc
  · intro fs u g vol volLen dest links c more er hc1 hc2 hc3 hc4 her
    rw [walkS_step_comp fs u g vol volLen dest links c more hc1 hc2 hc3 hc4]
    unfold_let
    rw [her]
  · exact accessF_sound cexC10 1 [] 4 ['/', 'a', '/', 'b'] 20 (.error (.sys ['g'])) (by rfl)

theorem claim10_witness :
    walkS cexC10 1 [] ['/'] 1 (joinPath [['b']]) ['/', 'a'] 0 = .error (.sys ['g']) := by
  refine claim10_theorem.2.1 cexC10 1 [] ['/'] 1 ['/', 'a'] 0 ['b'] [] _
    (by simp) (by simp) (by simp) (by simp) ?_
  have h : (if isSep (List.getLastD ['/', 'a'] '/') = true then ['/', 'a']
      else ['/', 'a'] ++ ['/']) = (['/', 'a', '/'] : List Char) := by
    decide
  rw [h, checkPath_step cexC10 1 [] 1 ['/', 'a', '/'] (by simp)]
  have hone : checkOne cexC10 1 [] 1 ['/', 'a', '/'] = .error (.sys ['g']) := by
    rfl
  simp only [hone]

/-- The name of the i-th link in the C6 chain filesystem: `/l`, `/ll`, ... -/
def linkName (i : Nat) : List Char := '/' :: 'l' :: List.replicate i 'l'

/-- C6 chain filesystem with `N` symlinks: `linkName i` (for `i < N`) is a
symlink to `linkName (i+1)` (absolute), the last one pointing to the plain
file `/t`. -/
def chainFs (N : Nat) : Fs where
  lstat p :=
    if p = ['/'] then .ok ⟨1, 0, 0⟩
    else if p = ['/', 't'] then .ok ⟨4, 0, 0⟩
    else if 2 ≤ p.length ∧ p.headD ' ' = '/' ∧ (p.drop 1).all (fun c => c = 'l')
        ∧ p.length - 1 ≤ N then .ok ⟨ModeSymlink, 0, 0⟩
    else .error ['n']
  readlink p :=
    if 2 ≤ p.length ∧ p.headD ' ' = '/' ∧ (p.drop 1).all (fun c => c = 'l')
        ∧ p.length - 1 ≤ N then
      if p.length - 1 < N then .ok (linkName (p.length - 1)) else .ok ['/', 't']
    else .error ['n']

theorem chainFs_lstat_link (N k : Nat) (h : k < N) :
    (chainFs N).lstat (linkName k) = .ok ⟨ModeSymlink, 0, 0⟩ := by
  have e1 : (chainFs N).lstat (linkName k) =
      (if linkName k = ['/'] then Except.ok (⟨1, 0, 0⟩ : FileInfo)
       else if linkName k = ['/', 't'] then Except.ok (⟨4, 0, 0⟩ : FileInfo)
       else if 2 ≤ (linkName k).length ∧ (linkName k).headD ' ' = '/'
           ∧ ((linkName k).drop 1).all (fun c => c = 'l') ∧ (linkName k).length - 1 ≤ N
         then Except.ok (⟨ModeSymlink, 0, 0⟩ : FileInfo)
       else Except.error ['n']) := rfl
  rw [e1, if_neg (by simp [linkName]), if_neg (by simp [linkName]), if_pos]
  refine ⟨?_, ?_, ?_, ?_⟩
  · simp [linkName]
  · simp [linkName]
  · simp [linkName, List.all_eq_true, List.mem_replicate]
  · simp [linkName]
    omega

theorem chainFs_readlink_link (N k : Nat) (h : k < N) :
    (chainFs N).readlink (linkName k) =
      if k + 1 < N then .ok (linkName (k + 1)) else .ok ['/', 't'] := by
  show (if _ then _ else _) = _
  rw [if_pos]
  · have hl : (linkName k).length - 1 = k + 1 := by
      simp [linkName]
    rw [hl]
  · refine ⟨?_, ?_, ?_, ?_⟩
    · simp [linkName]
    · simp [linkName]
    · simp [linkName, List.all_eq_true, List.mem_replicate]
    · simp [linkName]
      omega

theorem chain_checkRoot (N : Nat) (m : Nat) :
    checkPath (chainFs N) 1 [] m ['/'] = checkOne (chainFs N) 1 [] m ['/'] :=
  checkPath_root (chainFs N) 1 [] m

/-- One resolution step along the chain: from link `k` (with `k < N` and
the counter below the bound) the walk moves to link `k+1`, or to `/t` when
the chain ends. -/
theorem chain_step (N k : Nat) (hk : k < N) (h255 : k + 1 ≤ 255) :
    walkS (chainFs N) 1 [] ['/'] 1 ('l' :: List.replicate k 'l') ['/'] k =
      (if k + 1 < N then
        walkS (chainFs N) 1 [] ['/'] 1 ('l' :: List.replicate (k + 1) 'l') ['/'] (k + 1)
      else walkS (chainFs N) 1 [] ['/'] 1 ['t'] ['/'] (k + 1)) := by
  have h1 : walkS (chainFs N) 1 [] ['/'] 1 ('l' :: List.replicate k 'l') ['/'] k =
      walkS (chainFs N) 1 [] ['/'] 1 (joinPath [('l' :: List.replicate k 'l')]) ['/'] k := by
    rw [← walkS_dropSlash]
    show _ = walkS (chainFs N) 1 [] ['/'] 1 ('/' :: ('l' :: List.replicate k 'l') ++ joinPath []) ['/'] k
    simp [joinPath]
  rw [h1, walkS_step_comp (chainFs N) 1 [] ['/'] 1 ['/'] k ('l' :: List.replicate k 'l') []
    (by simp) (by simp [List.mem_replicate]) (by simp) (by simp)]
  unfold_let
  have hpre : (if isSep (List.getLastD ['/'] '/') = true then ['/'] else ['/'] ++ ['/'])
      = (['/'] : List Char) := by
    decide
  rw [hpre]
  have hchk : checkPath (chainFs N) 1 [] 1 ['/'] = .ok () := by
    rw [chain_checkRoot]
    rfl
  have hln : (['/'] : List Char) ++ ('l' :: List.replicate k 'l') = linkName k := rfl
  rw [hln]
  simp only [hchk, chainFs_lstat_link N k hk]
  rw [if_neg (by decide : ¬(ModeSymlink &&& ModeSymlink = 0))]
  rw [if_neg (by omega : ¬(k + 1 > 255))]
  by_cases hnext : k + 1 < N
  · have hrd : (chainFs N).readlink (linkName k) = .ok (linkName (k + 1)) := by
      rw [chainFs_readlink_link N k hk, if_pos hnext]
    simp only [hrd]
    have habs : 0 < (linkName (k + 1)).length ∧ isSep ((linkName (k + 1)).headD ' ') = true := by
      simp [linkName, isSep]
    rw [if_pos habs]
    have h2 : (linkName (k + 1) ++ joinPath []).drop 1 = 'l' :: List.replicate (k + 1) 'l' := by
      simp [linkName, joinPath]
    have h3 : (linkName (k + 1)).take 1 = ['/'] := by
      simp [linkName]
    rw [h2, h3, if_pos hnext]
  · have hrd : (chainFs N).readlink (linkName k) = .ok ['/', 't'] := by
      rw [chainFs_readlink_link N k hk, if_neg hnext]
    simp only [hrd]
    have habs : 0 < (['/', 't'] : List Char).length ∧
        isSep ((['/', 't'] : List Char).headD ' ') = true := by
      decide
    rw [if_pos habs]
    have h2 : ((['/', 't'] : List Char) ++ joinPath []).drop 1 = ['t'] := by
      simp [joinPath]
    have h3 : (['/', 't'] : List Char).take 1 = ['/'] := by
      decide
    rw [h2, h3, if_neg hnext]

/-- Arrival: from the `/t` suffix the walk completes with `/t` resolved. -/
theorem chain_finish (N links : Nat) :
    walkS (chainFs N) 1 [] ['/'] 1 ['t'] ['/'] links = .ok ['/', 't'] := by
  have h1 : walkS (chainFs N) 1 [] ['/'] 1 ['t'] ['/'] links =
      walkS (chainFs N) 1 [] ['/'] 1 (joinPath [['t']]) ['/'] links := by
    rw [← walkS_dropSlash]
    show _ = walkS (chainFs N) 1 [] ['/'] 1 ('/' :: ['t'] ++ joinPath []) ['/'] links
    simp [joinPath]
  rw [h1, walkS_step_comp (chainFs N) 1 [] ['/'] 1 ['/'] links ['t'] []
    (by simp) (by simp) (by simp) (by simp)]
  unfold_let
  have hpre : (if isSep (List.getLastD ['/'] '/') = true then ['/'] else ['/'] ++ ['/'])
      = (['/'] : List Char) := by
    decide
  rw [hpre]
  have hchk : checkPath (chainFs N) 1 [] 1 ['/'] = .ok () := by
    rw [chain_checkRoot]
    rfl
  have hlt : (chainFs N).lstat ((['/'] : List Char) ++ ['t']) = .ok ⟨4, 0, 0⟩ := rfl
  simp only [hchk, hlt]
  rw [if_pos (by decide : (4 : Nat) &&& ModeSymlink = 0)]
  rw [if_neg (by simp : ¬((4 : Nat) &&& ModeDir = 0 ∧ ([] : List (List Char)) ≠ []))]
  simp only [joinPath, walkS_nil]
  rfl

theorem chain_walk_ok (N : Nat) (hN : N ≤ 255) :
    ∀ d k, k + 1 + d = N →
      walkS (chainFs N) 1 [] ['/'] 1 ('l' :: List.replicate k 'l') ['/'] k = .ok ['/', 't'] := by
  intro d
  induction d with
  | zero =>
    intro k hk
    rw [chain_step N k (by omega) (by omega)]
    rw [if_neg (by omega), chain_finish]
  | succ d ih =>
    intro k hk
    rw [chain_step N k (by omega) (by omega)]
    rw [if_pos (by omega)]
    exact ih (k + 1) (by omega)

theorem chain_walk_toomany : ∀ d k, k + d = 255 →
    walkS (chainFs 256) 1 [] ['/'] 1 ('l' :: List.replicate k 'l') ['/'] k =
      .error .tooManyLinks := by
  intro d
  induction d with
  | zero =>
    intro k hk
    have h1 : walkS (chainFs 256) 1 [] ['/'] 1 ('l' :: List.replicate k 'l') ['/'] k =
        walkS (chainFs 256) 1 [] ['/'] 1 (joinPath [('l' :: List.replicate k 'l')]) ['/'] k := by
      rw [← walkS_dropSlash]
      show _ = walkS (chainFs 256) 1 [] ['/'] 1
        ('/' :: ('l' :: List.replicate k 'l') ++ joinPath []) ['/'] k
      simp [joinPath]
    rw [h1, walkS_step_comp (chainFs 256) 1 [] ['/'] 1 ['/'] k ('l' :: List.replicate k 'l') []
      (by simp) (by simp [List.mem_replicate]) (by simp) (by simp)]
    unfold_let
    have hpre : (if isSep (List.getLastD ['/'] '/') = true then ['/'] else ['/'] ++ ['/'])
        = (['/'] : List Char) := by
      decide
    rw [hpre]
    have hchk : checkPath (chainFs 256) 1 [] 1 ['/'] = .ok () := by
      rw [chain_checkRoot]
      rfl
    have hln : (['/'] : List Char) ++ ('l' :: List.replicate k 'l') = linkName k := rfl
    rw [hln]
    simp only [hchk, chainFs_lstat_link 256 k (by omega)]
    rw [if_neg (by decide : ¬(ModeSymlink &&& ModeSymlink = 0))]
    rw [if_pos (by omega : k + 1 > 255)]
  | succ d ih =>
    intro k hk
    rw [chain_step 256 k (by omega) (by omega)]
    rw [if_pos (by omega)]
    exact ih (k + 1) (by omega)

/-- C6: on meeting a symlink the walk substitutes `link ++ remaining
suffix`, resets the prefix to the root for an absolute target (`take 1` of
a separator-headed target is exactly `/`), backs up to the parent for a
relative one, and increments the counter; once the counter would exceed 255
it fails with `tooManyLinks` before reading the link; a chain of `N ≤ 255`
absolute links resolves to the final target `/t` and the access succeeds,
while a 256-link chain fails with `tooManyLinks`. -/
theorem claim6_theorem :
    (∀ (fs : Fs) (u : Int) (g : List Int) (vol : List Char) (volLen : Nat)
        (dest : List Char) (links : Nat) (c : List Char) (more : List (List Char))
        (fi : FileInfo) (link : List Char),
      c ≠ [] → '/' ∉ c → c ≠ ['.'] → c ≠ ['.', '.'] →
      checkPath fs u g 1
        (if isSep (dest.getLastD '/') = true then dest else dest ++ ['/']) = .ok () →
      fs.lstat ((if isSep (dest.getLastD '/') = true then dest else dest ++ ['/']) ++ c)
        = .ok fi →
      fi.mode &&& ModeSymlink ≠ 0 → ¬(links + 1 > 255) →
      fs.readlink ((if isSep (dest.getLastD '/') = true then dest else dest ++ ['/']) ++ c)
        = .ok link →
      walkS fs u g vol volLen (joinPath (c :: more)) dest links =
        (if 0 < link.length ∧ isSep (link.headD ' ') = true then
          walkS fs u g vol volLen ((link ++ joinPath more).drop 1) (link.take 1) (links + 1)
        else
          walkS fs u g vol volLen (link ++ joinPath more)
            (match lastSepGe
                ((if isSep (dest.getLastD '/') = true then dest else dest ++ ['/']) ++ c)
                volLen with
             | none => vol
             | some r =>
               ((if isSep (dest.getLastD '/') = true then dest
                 else dest ++ ['/']) ++ c).take r)
            (links + 1))) ∧
    (∀ link : List Char, 0 < link.length → isSep (link.headD ' ') = true →
      link.take 1 = ['/']) ∧
    (∀ (fs : Fs) (u : Int) (g : List Int) (vol : List Char) (volLen : Nat)
        (dest : List Char) (links : Nat) (c : List Char) (more : List (List Char))
        (fi : FileInfo),
      c ≠ [] → '/' ∉ c → c ≠ ['.'] → c ≠ ['.', '.'] →
      checkPath fs u g 1
        (if isSep (dest.getLastD '/') = true then dest else dest ++ ['/']) = .ok () →
      fs.lstat ((if isSep (dest.getLastD '/') = true then dest else dest ++ ['/']) ++ c)
        = .ok fi →
      fi.mode &&& ModeSymlink ≠ 0 → links + 1 > 255 →
      walkS fs u g vol volLen (joinPath (c :: more)) dest links = .error .tooManyLinks) ∧
    (∀ N, 1 ≤ N → N ≤ 255 → access (chainFs N) 1 [] 4 (linkName 0) = .ok ()) ∧
    access (chainFs 256) 1 [] 4 (linkName 0) = .error .tooManyLinks := by
  refine ⟨?_, ?_, ?_, ?_, ?_⟩
  · intro fs u g vol volLen dest links c more fi link hc1 hc2 hc3 hc4 hchk hlstat hsym h255 hrl
    rw [walkS_step_comp fs u g vol volLen dest links c more hc1 hc2 hc3 hc4]
    unfold_let
    simp only [hchk, hlstat]
    rw [if_neg hsym, if_neg h255]
    simp only [hrl]
  · intro link h1 h2
    cases link with
    | nil => simp at h1
    | cons a t =>
      have ha : a = '/' := (isSep_iff a).mp h2
      simp [ha]
  · intro fs u g vol volLen dest links c more fi hc1 hc2 hc3 hc4 hchk hlstat hsym h255
    rw [walkS_step_comp fs u g vol volLen dest links c more hc1 hc2 hc3 hc4]
    unfold_let
    simp only [hchk, hlstat]
    rw [if_neg hsym, if_pos h255]
  · intro N h1 h255
    show access (chainFs N) 1 [] 4 ('/' :: 'l' :: List.replicate 0 'l') = .ok ()
    rw [access_slash, chain_walk_ok N h255 (N - 1) 0 (by omega)]
    show checkPath (chainFs N) 1 [] 4 ['/', 't'] = .ok ()
    rw [checkPath_step (chainFs N) 1 [] 4 ['/', 't'] (by simp)]
    have hone : checkOne (chainFs N) 1 [] 4 ['/', 't'] = .ok () := rfl
    simp only [hone]
    have hli : lastIdxSep ['/', 't'] = some 0 := rfl
    simp only [hli, List.take_zero, checkPath_nil]
  · show access (chainFs 256) 1 [] 4 ('/' :: 'l' :: List.replicate 0 'l') =
      .error .tooManyLinks
    rw [access_slash, chain_walk_toomany 255 0 (by omega)]

theorem claim6_witness :
    access (chainFs 2) 1 [] 4 (linkName 0) = .ok () :=
  claim6_theorem.2.2.2.1 2 (by omega) (by omega)


/-- C9: the component walk terminates — for every oracle and every starting
state some finite fuel makes the fuel-indexed loop complete with the same
result as the loop itself (each iteration consumes a component or follows a
symlink, and the 255-bound on followed links keeps the count finite). -/
theorem claim9_theorem (fs : Fs) (uid : Int) (gi : List Int) (vol : List Char)
    (volLen : Nat) :
    ∀ (path dest : List Char) (pos links : Nat),
      ∃ n, walkF fs uid gi vol volLen n path dest pos links =
        some (walk fs uid gi vol volLen path dest pos links) := by
  refine walk.induct fs uid gi vol volLen
    (fun path dest pos links =>
      ∃ n, walkF fs uid gi vol volLen n path dest pos links =
        some (walk fs uid gi vol volLen path dest pos links))
    ?_ ?_ ?_ ?_ ?_ ?_ ?_ ?_ ?_ ?_ ?_ ?_
  · intro path dest pos links hguard start e he
    refine ⟨0 + 1, ?_⟩
    unfold_let start e at he
    rw [walk, dif_pos hguard, dif_pos he]
    rw [walkF, dif_pos hguard, dif_pos he]
  · intro path dest pos links hguard start e hne comp hdot IH
    obtain ⟨n, hn⟩ := IH
    refine ⟨n + 1, ?_⟩
    unfold_let start e at hne
    unfold_let start e comp at hdot
    rw [walk, dif_pos hguard, dif_neg hne, if_pos hdot]
    rw [walkF, dif_pos hguard, dif_neg hne, if_pos hdot]
    exact hn
  · intro path dest pos links hguard start e hne comp hndot hddot dest' IH
    obtain ⟨n, hn⟩ := IH
    refine ⟨n + 1, ?_⟩
    unfold_let start e at hne
    unfold_let start e comp at hndot hddot
    rw [walk, dif_pos hguard, dif_neg hne, if_neg hndot, if_pos hddot]
    rw [walkF, dif_pos hguard, dif_neg hne, if_neg hndot, if_pos hddot]
    unfold_let
    exact hn
  · intro path dest pos links hguard start e hne comp hndot hnddot dest1 l dest2 err hchk
    refine ⟨0 + 1, ?_⟩
    unfold_let start e comp at hndot hnddot
    unfold_let dest2 l dest1 comp e start at hchk
    unfold_let dest1 comp e start at hchk
    unfold_let e start at hchk
    simp only [dite_eq_ite] at hchk
    rw [walk, dif_pos hguard, dif_neg hne, if_neg hndot, if_neg hnddot]
    rw [walkF, dif_pos hguard, dif_neg hne, if_neg hndot, if_neg hnddot]
    unfold_let
    simp only [hchk]
  · intro path dest pos links hguard start e hne comp hndot hnddot dest1 l dest2 a hchk er hlstat
    refine ⟨0 + 1, ?_⟩
    unfold_let start e comp at hndot hnddot
    unfold_let dest2 l dest1 comp e start at hchk hlstat
    unfold_let dest1 comp e start at hchk hlstat
    unfold_let e start at hchk hlstat
    simp only [dite_eq_ite] at hchk hlstat
    rw [walk, dif_pos hguard, dif_neg hne, if_neg hndot, if_neg hnddot]
    rw [walkF, dif_pos hguard, dif_neg hne, if_neg hndot, if_neg hnddot]
    unfold_let
    simp only [hchk, hlstat]
  · intro path dest pos links hguard start e hne comp hndot hnddot dest1 l dest2 a hchk fi hlstat hsym hnd
    refine ⟨0 + 1, ?_⟩
    unfold_let start e comp at hndot hnddot
    unfold_let dest2 l dest1 comp e start at hchk hlstat
    unfold_let dest1 comp e start at hchk hlstat
    unfold_let e start at hchk hlstat
    unfold_let e start at hnd
    simp only [dite_eq_ite] at hchk hlstat
    rw [walk, dif_pos hguard, dif_neg hne, if_neg hndot, if_neg hnddot]
    rw [walkF, dif_pos hguard, dif_neg hne, if_neg hndot, if_neg hnddot]
    unfold_let
    simp only [hchk, hlstat, hsym, hnd, and_self, if_true]
  · intro path dest pos links hguard start e hne comp hndot hnddot dest1 l dest2 a hchk fi hlstat hsym hnnd IH
    obtain ⟨n, hn⟩ := IH
    refine ⟨n + 1, ?_⟩
    unfold_let start e comp at hndot hnddot
    unfold_let dest2 l dest1 comp e start at hchk hlstat
    unfold_let dest1 comp e start at hchk hlstat
    unfold_let e start at hchk hlstat
    unfold_let e start at hnnd
    unfold_let dest2 l dest1 comp e start at hn
    unfold_let dest1 comp e start at hn
    unfold_let e start at hn
    simp only [dite_eq_ite] at hchk hlstat hn
    rw [walk, dif_pos hguard, dif_neg hne, if_neg hndot, if_neg hnddot]
    rw [walkF, dif_pos hguard, dif_neg hne, if_neg hndot, if_neg hnddot]
    unfold_let
    simp only [hchk, hlstat, hsym, hnnd, if_false, if_true]
    exact hn
  · intro path dest pos links hguard start e hne comp hndot hnddot dest1 l dest2 a hchk fi hlstat hsym h255
    refine ⟨0 + 1, ?_⟩
    unfold_let start e comp at hndot hnddot
    unfold_let dest2 l dest1 comp e start at hchk hlstat
    unfold_let dest1 comp e start at hchk hlstat
    unfold_let e start at hchk hlstat
    simp only [dite_eq_ite] at hchk hlstat
    rw [walk, dif_pos hguard, dif_neg hne, if_neg hndot, if_neg hnddot]
    rw [walkF, dif_pos hguard, dif_neg hne, if_neg hndot, if_neg hnddot]
    unfold_let
    simp only [hchk, hlstat, hsym, if_false, dif_pos h255]
  · intro path dest pos links hguard start e hne comp hndot hnddot dest1 l dest2 a hchk fi hlstat hsym h255 er hrl
    refine ⟨0 + 1, ?_⟩
    unfold_let start e comp at hndot hnddot
    unfold_let dest2 l dest1 comp e start at hchk hlstat hrl
    unfold_let dest1 comp e start at hchk hlstat hrl
    unfold_let e start at hchk hlstat hrl
    simp only [dite_eq_ite] at hchk hlstat hrl
    rw [walk, dif_pos hguard, dif_neg hne, if_neg hndot, if_neg hnddot]
    rw [walkF, dif_pos hguard, dif_neg hne, if_neg hndot, if_neg hnddot]
    unfold_let
    simp only [hchk, hlstat, hsym, if_false, dif_neg h255, hrl]
  · intro path dest pos links hguard start e hne comp hndot hnddot dest1 l dest2 a hchk fi hlstat hsym h255 link hrl path' habs IH
    obtain ⟨n, hn⟩ := IH
    refine ⟨n + 1, ?_⟩
    unfold_let start e comp at hndot hnddot
    unfold_let dest2 l dest1 comp e start at hchk hlstat hrl
    unfold_let dest1 comp e start at hchk hlstat hrl
    unfold_let e start at hchk hlstat hrl
    unfold_let path' e start at hn
    unfold_let e start at hn
    simp only [dite_eq_ite] at hchk hlstat hrl
    rw [walk, dif_pos hguard, dif_neg hne, if_neg hndot, if_neg hnddot]
    rw [walkF, dif_pos hguard, dif_neg hne, if_neg hndot, if_neg hnddot]
    unfold_let
    simp only [hchk, hlstat, hsym, if_false, dif_neg h255, hrl, habs, and_self, if_true]
    exact hn
  · intro path dest pos links hguard start e hne comp hndot hnddot dest1 l dest2 a hchk fi hlstat hsym h255 link hrl path' hnabs dest' IH
    obtain ⟨n, hn⟩ := IH
    refine ⟨n + 1, ?_⟩
    unfold_let start e comp at hndot hnddot
    unfold_let dest2 l dest1 comp e start at hchk hlstat hrl
    unfold_let dest1 comp e start at hchk hlstat hrl
    unfold_let e start at hchk hlstat hrl
    unfold_let dest' path' dest2 l dest1 comp e start at hn
    unfold_let dest1 comp e start at hn
    unfold_let e start at hn
    simp only [dite_eq_ite] at hchk hlstat hrl hn
    rw [walk, dif_pos hguard, dif_neg hne, if_neg hndot, if_neg hnddot]
    rw [walkF, dif_pos hguard, dif_neg hne, if_neg hndot, if_neg hnddot]
    unfold_let
    simp only [hchk, hlstat, hsym, if_false, dif_neg h255, hrl, hnabs]
    exact hn
  · intro path dest pos links hguard
    refine ⟨0 + 1, ?_⟩
    rw [walk, dif_neg hguard]
    rw [walkF, dif_neg hguard]


/-! ### C7: `..` cancellation -/

theorem lastSepGeAux_skip (dest : List Char) (volLen n k : Nat) (hv : volLen ≤ n)
    (h : ∀ j, n ≤ j → j < n + k → isSep (dest.getD j ' ') = false) :
    lastSepGeAux dest volLen (n + k) = lastSepGeAux dest volLen n := by
  induction k with
  | zero => rfl
  | succ k ih =>
    have hstep : n + (k + 1) = (n + k) + 1 := rfl
    rw [hstep, lastSepGeAux, if_pos (by omega : volLen ≤ n + k),
      h (n + k) (by omega) (by omega)]
    simp only [Bool.false_eq_true, if_false]
    exact ih (fun j hj1 hj2 => h j hj1 (by omega))

/-- The `r` backtrack scan on a path of the form `q ++ "/" ++ c` with `c`
separator-free finds the separator at index `q.length`. -/
theorem lastSepGe_append_comp (q c : List Char) (volLen : Nat)
    (hq : volLen ≤ q.length) (hc : '/' ∉ c) :
    lastSepGe (q ++ '/' :: c) volLen = some q.length := by
  unfold lastSepGe
  have hlen : (q ++ '/' :: c).length = (q.length + 1) + c.length := by
    simp
    omega
  rw [hlen]
  rw [lastSepGeAux_skip (q ++ '/' :: c) volLen (q.length + 1) c.length (by omega) ?hns]
  case hns =>
    intro j h1 h2
    have hg : (q ++ '/' :: c).getD j ' ' = c.getD (j - q.length - 1) ' ' := by
      rw [List.getD_append_right q ('/' :: c) ' ' j (by omega)]
      have hj : j - q.length = (j - q.length - 1) + 1 := by omega
      rw [hj]
      rfl
    rw [hg]
    have hlt : j - q.length - 1 < c.length := by omega
    have hmem : c.getD (j - q.length - 1) ' ' ∈ c := by
      rw [List.getD_eq_getElem c ' ' hlt]
      exact List.getElem_mem hlt
    have hne : c.getD (j - q.length - 1) ' ' ≠ '/' := fun hh => hc (hh ▸ hmem)
    simp only [isSep, decide_eq_false_iff_not]
    exact hne
  rw [lastSepGeAux, if_pos hq]
  have hg : (q ++ '/' :: c).getD q.length ' ' = '/' := by
    rw [List.getD_append_right q ('/' :: c) ' ' q.length (le_refl _)]
    simp
  rw [hg]
  simp [isSep]

/-- On a resolved prefix of the form `q ++ "/" ++ x` (with `x` an ordinary
component), the `..` backtrack of the walk strips back to `q`. -/
theorem dotdot_back (q x : List Char) (hq : 1 ≤ q.length) (hx2 : '/' ∉ x)
    (hx4 : x ≠ ['.', '.']) :
    (match lastSepGe (q ++ '/' :: x) 1 with
     | none => keepDotDot (q ++ '/' :: x) 1
     | some r =>
       if (q ++ '/' :: x).drop (r + 1) = ['.', '.'] then keepDotDot (q ++ '/' :: x) 1
       else (q ++ '/' :: x).take r) = q := by
  simp only [lastSepGe_append_comp q x 1 hq hx2]
  have hdrop : (q ++ '/' :: x).drop (q.length + 1) = x := by
    have h1 : q ++ '/' :: x = (q ++ ['/']) ++ x := by simp
    have h2 : q.length + 1 = (q ++ ['/']).length := by simp
    rw [h1, h2, List.drop_left]
  rw [hdrop, if_neg hx4, List.take_left]

/-- The getLast of a joined path whose last component is ordinary is not a
separator, so the walk appends a separator before the next component. -/
theorem dest1_join (ds : List (List Char)) (c : List Char) (hc1 : c ≠ [])
    (hc2 : '/' ∉ c) :
    (if isSep ((joinPath (ds ++ [c])).getLastD '/') = true then joinPath (ds ++ [c])
     else joinPath (ds ++ [c]) ++ ['/']) = joinPath (ds ++ [c]) ++ ['/'] := by
  rcases List.eq_nil_or_concat c with h | ⟨L, b, hcx⟩
  · exact absurd h hc1
  · have hb : b ∈ c := by
      rw [hcx]
      simp
    have hbn : b ≠ '/' := fun hh => hc2 (hh ▸ hb)
    have hj : joinPath (ds ++ [c]) = (joinPath ds ++ '/' :: L) ++ [b] := by
      rw [joinPath_snoc, hcx]
      simp
    have hlast : (joinPath (ds ++ [c])).getLastD '/' = b := by
      rw [hj, List.getLastD_concat]
    rw [hlast, if_neg (by simp [isSep, hbn])]

/-- `access` on a clean joined path, through `walkS`. -/
theorem access_join (fs : Fs) (u : Int) (g : List Int) (mode : Nat) (a : List Char)
    (rest : List (List Char)) :
    access fs u g mode (joinPath (a :: rest)) =
      match walkS fs u g ['/'] 1 (joinPath (a :: rest)) ['/'] 0 with
      | .error e => .error e
      | .ok dest => checkPath fs u g mode dest := by
  have e1 : joinPath (a :: rest) = '/' :: (a ++ joinPath rest) := rfl
  rw [e1, access_slash, ← walkS_dropSlash fs u g ['/'] 1 (a ++ joinPath rest) ['/'] 0]

/-- C7 counterexample filesystem: `/a` and `/a/b` exist, but any lstat of
`/a/x` fails (the component `x` does not exist). -/
def cexC7 : Fs where
  lstat p :=
    if p = ['/'] then .ok ⟨1, 0, 0⟩
    else if p = ['/', 'a'] then .ok ⟨ModeDir + 1, 0, 0⟩
    else if p = ['/', 'a', '/'] then .ok ⟨ModeDir + 1, 0, 0⟩
    else if p = ['/', 'a', '/', 'b'] then .ok ⟨4, 0, 0⟩
    else .error ['g', 'o', 'n', 'e']
  readlink _ := .error ['n']

/-- Claim C7, as stated, is false: the walk *does* perform a metadata query
(`os.Lstat`, `access.go` line 238) on a component that is immediately
canceled by a following `..` — the query's outcome is observable:
`/a/x/../b` fails with the lstat error of `/a/x`, while `/a/b` succeeds. -/
theorem claim7_counterexample :
    access cexC7 1 [1] 4 ['/', 'a', '/', 'x', '/', '.', '.', '/', 'b'] =
        .error (.sys ['g', 'o', 'n', 'e']) ∧
      access cexC7 1 [1] 4 ['/', 'a', '/', 'b'] = .ok () := by
  constructor
  · exact accessF_sound cexC7 1 [1] 4 ['/', 'a', '/', 'x', '/', '.', '.', '/', 'b'] 20
      (.error (.sys ['g', 'o', 'n', 'e'])) (by rfl)
  · exact accessF_sound cexC7 1 [1] 4 ['/', 'a', '/', 'b'] 20 (.ok ()) (by rfl)

/-- C7 amended: a `..` immediately following an ordinary component `x`
cancels it lexically and no *permission* check is ever made on the canceled
component, but its metadata *is* queried: provided the lstat of the canceled
component succeeds and reports a (non-symlink) directory — its permission
bits are irrelevant — the whole check behaves exactly as if `x/..` were
absent. -/
theorem claim7_theorem (fs : Fs) (u : Int) (g : List Int) (mode : Nat)
    (a x b : List Char) (ha : goodComp a) (hx : goodComp x) (hb : goodComp b)
    (hasym : ∀ fi, fs.lstat (joinPath [a]) = .ok fi → fi.mode &&& ModeSymlink = 0)
    (fx : FileInfo) (hxl : fs.lstat (joinPath [a, x]) = .ok fx)
    (hxsym : fx.mode &&& ModeSymlink = 0) (hxdir : fx.mode &&& ModeDir ≠ 0) :
    access fs u g mode (joinPath [a, x, ['.', '.'], b]) =
      access fs u g mode (joinPath [a, b]) := by
  obtain ⟨ha1, ha2, ha3, ha4⟩ := ha
  obtain ⟨hx1, hx2, hx3, hx4⟩ := hx
  obtain ⟨hb1, hb2, hb3, hb4⟩ := hb
  have key : walkS fs u g ['/'] 1 (joinPath [a, x, ['.', '.'], b]) ['/'] 0 =
      walkS fs u g ['/'] 1 (joinPath [a, b]) ['/'] 0 := by
    rw [walkS_step_comp fs u g ['/'] 1 ['/'] 0 a [x, ['.', '.'], b] ha1 ha2 ha3 ha4]
    rw [walkS_step_comp fs u g ['/'] 1 ['/'] 0 a [b] ha1 ha2 ha3 ha4]
    unfold_let
    have hd1 : (if isSep (List.getLastD ['/'] '/') = true then ['/'] else ['/'] ++ ['/'])
        = (['/'] : List Char) := by decide
    simp only [hd1]
    rcases except_cases (checkPath fs u g 1 ['/']) with ⟨e, hR⟩ | hR
    · simp only [hR]
    · simp only [hR]
      have hja : (['/'] : List Char) ++ a = joinPath [a] := by simp [joinPath]
      rw [hja]
      rcases exceptFi_cases (fs.lstat (joinPath [a])) with ⟨er, hla⟩ | ⟨fa, hla⟩
      · simp only [hla]
      · simp only [hla]
        have hfa := hasym fa hla
        rw [if_pos hfa, if_pos hfa]
        by_cases hdir : fa.mode &&& ModeDir = 0
        · rw [if_pos ⟨hdir, by simp⟩, if_pos ⟨hdir, by simp⟩]
        · rw [if_neg (fun hh => hdir hh.1), if_neg (fun hh => hdir hh.1)]
          rw [walkS_step_comp fs u g ['/'] 1 (joinPath [a]) 0 x [['.', '.'], b]
            hx1 hx2 hx3 hx4]
          rw [walkS_step_comp fs u g ['/'] 1 (joinPath [a]) 0 b [] hb1 hb2 hb3 hb4]
          unfold_let
          have hd2 : (if isSep ((joinPath ([] ++ [a])).getLastD '/') = true
              then joinPath ([] ++ [a]) else joinPath ([] ++ [a]) ++ ['/'])
                = joinPath ([] ++ [a]) ++ ['/'] := dest1_join [] a ha1 ha2
          simp only [List.nil_append] at hd2
          simp only [hd2]
          rcases except_cases (checkPath fs u g 1 (joinPath [a] ++ ['/'])) with
            ⟨e, hS⟩ | hS
          · simp only [hS]
          · simp only [hS]
            have hjx : (joinPath [a] ++ ['/']) ++ x = joinPath [a, x] := by
              simp [joinPath]
            rw [hjx]
            simp only [hxl]
            rw [if_pos hxsym, if_neg (fun hh => hxdir hh.1)]
            rw [walkS_step_dotdot]
            have hjs : joinPath [a, x] = joinPath [a] ++ '/' :: x := by
              simp [joinPath]
            have hq1 : 1 ≤ (joinPath [a]).length := by
              simp [joinPath]
            have hback : (match lastSepGe (joinPath [a, x]) 1 with
                | none => keepDotDot (joinPath [a, x]) 1
                | some r =>
                  if (joinPath [a, x]).drop (r + 1) = ['.', '.'] then
                    keepDotDot (joinPath [a, x]) 1
                  else (joinPath [a, x]).take r) = joinPath [a] := by
              rw [hjs]
              exact dotdot_back (joinPath [a]) x hq1 hx2 hx4
            rw [hback]
            rw [walkS_step_comp fs u g ['/'] 1 (joinPath [a]) 0 b [] hb1 hb2 hb3 hb4]
            unfold_let
            simp only [hd2]
            simp only [hS]
  rw [access_join fs u g mode a [x, ['.', '.'], b], access_join fs u g mode a [b], key]

/-- C7 witness filesystem: `/a/x` is a directory with *no* permission bits
at all (the principal cannot execute it); `/a/b` is readable. -/
def cexC7w : Fs where
  lstat p :=
    if p = ['/'] then .ok ⟨1, 0, 0⟩
    else if p = ['/', 'a'] then .ok ⟨ModeDir + 1, 0, 0⟩
    else if p = ['/', 'a', '/'] then .ok ⟨ModeDir + 1, 0, 0⟩
    else if p = ['/', 'a', '/', 'x'] then .ok ⟨ModeDir, 0, 0⟩
    else if p = ['/', 'a', '/', 'b'] then .ok ⟨4, 0, 0⟩
    else .error ['n']
  readlink _ := .error ['n']

theorem claim7_witness :
    access cexC7w 1 [1] 4 (joinPath [['a'], ['x'], ['.', '.'], ['b']]) =
      access cexC7w 1 [1] 4 (joinPath [['a'], ['b']]) := by
  refine claim7_theorem cexC7w 1 [1] 4 ['a'] ['x'] ['b']
    ⟨by simp, by simp, by simp, by simp⟩
    ⟨by simp, by simp, by simp, by simp⟩
    ⟨by simp, by simp, by simp, by simp⟩
    ?_ ⟨ModeDir, 0, 0⟩ ?_ (by decide) (by decide)
  · intro fi h
    have hv : cexC7w.lstat (joinPath [['a']]) = .ok ⟨ModeDir + 1, 0, 0⟩ := by rfl
    rw [hv] at h
    cases h
    decide
  · rfl


/-! ### C1: clean absolute paths -/

/-- The chain of permission tests that `checkPath p` performs on a joined
path: the given mode on the full path, then execute on every shorter
nonempty prefix. -/
def chainOkB (fs : Fs) (u : Int) (g : List Int) : Nat → List (List Char) → Bool
  | _, [] => true
  | m, c :: rest =>
    nodeOkB fs u g m (joinPath (c :: rest)) && chainOkB fs u g 1 (c :: rest).dropLast
termination_by m cs => cs.length
decreasing_by
  simp [List.length_dropLast]

theorem chainOkB_nil (fs : Fs) (u : Int) (g : List Int) (m : Nat) :
    chainOkB fs u g m [] = true := by
  rw [chainOkB]

theorem chainOkB_snoc (fs : Fs) (u : Int) (g : List Int) (m : Nat)
    (ds : List (List Char)) (c : List Char) :
    chainOkB fs u g m (ds ++ [c]) =
      (nodeOkB fs u g m (joinPath (ds ++ [c])) && chainOkB fs u g 1 ds) := by
  obtain ⟨d, t, hdt⟩ : ∃ d t, ds ++ [c] = d :: t := by
    cases ds with
    | nil => exact ⟨c, [], rfl⟩
    | cons d t => exact ⟨d, t ++ [c], rfl⟩
  rw [hdt, chainOkB, ← hdt, List.dropLast_concat]

theorem checkOne_err_shape (fs : Fs) (u : Int) (g : List Int) (m : Nat) (p : List Char)
    (e : AccessError) (h : checkOne fs u g m p = .error e) :
    (∃ pe, e = .perm pe) ∨ (∃ ms, e = .sys ms) := by
  unfold checkOne at h
  rcases exceptFi_cases (fs.lstat p) with ⟨er, hl⟩ | ⟨fi, hl⟩
  · simp only [hl] at h
    cases h
    exact Or.inr ⟨er, rfl⟩
  · simp only [hl] at h
    by_cases hd : denied u g m fi.mode fi.uid fi.gid = true
    · rw [if_pos hd] at h
      cases h
      exact Or.inl ⟨_, rfl⟩
    · rw [if_neg hd] at h
      exact absurd h (by simp)

theorem nodeOkB_false_of_checkOne_err (fs : Fs) (u : Int) (g : List Int) (m : Nat)
    (p : List Char) (e : AccessError) (h : checkOne fs u g m p = .error e) :
    nodeOkB fs u g m p = false := by
  rcases Bool.eq_false_or_eq_true (nodeOkB fs u g m p) with hb | hb
  case inr => exact hb
  · exfalso
    have hok := (checkOne_ok_iff fs u g m p).mpr hb
    rw [h] at hok
    exact Except.noConfusion hok

theorem nodeOkB_lstat (fs : Fs) (u : Int) (g : List Int) (m : Nat) (p : List Char)
    (h : nodeOkB fs u g m p = true) : ∃ fi, fs.lstat p = .ok fi := by
  unfold nodeOkB at h
  rcases exceptFi_cases (fs.lstat p) with ⟨e, hl⟩ | ⟨fi, hl⟩
  · simp only [hl] at h
    exact absurd h (by simp)
  · exact ⟨fi, hl⟩

theorem nodeOkB_congr (fs : Fs) (u : Int) (g : List Int) (m : Nat) (p q : List Char)
    (h : fs.lstat p = fs.lstat q) : nodeOkB fs u g m p = nodeOkB fs u g m q := by
  unfold nodeOkB
  rw [h]

/-- `checkPath` on a joined clean path succeeds exactly when the whole
permission chain grants. -/
theorem checkPath_join_ok_iff (fs : Fs) (u : Int) (g : List Int) :
    ∀ (cs : List (List Char)), (∀ c ∈ cs, '/' ∉ c) → ∀ (m : Nat),
      (checkPath fs u g m (joinPath cs) = .ok () ↔ chainOkB fs u g m cs = true) := by
  intro cs
  induction cs using List.reverseRecOn with
  | nil =>
    intro hcs m
    simp [joinPath, checkPath_nil, chainOkB_nil]
  | append_singleton ds c ih =>
    intro hcs m
    have hc : '/' ∉ c := hcs c (by simp)
    have hds : ∀ d ∈ ds, '/' ∉ d := fun d hd => hcs d (by simp [hd])
    rw [checkPath_snoc fs u g m ds c hc, chainOkB_snoc fs u g m ds c]
    rcases except_cases (checkOne fs u g m (joinPath (ds ++ [c]))) with ⟨e, hco⟩ | hco
    · simp only [hco]
      have hn := nodeOkB_false_of_checkOne_err fs u g m (joinPath (ds ++ [c])) e hco
      rw [hn]
      simp
    · simp only [hco]
      have hn := (checkOne_ok_iff fs u g m (joinPath (ds ++ [c]))).mp hco
      rw [hn]
      simp only [Bool.true_and]
      exact ih hds 1

/-- Every error of `checkPath` on a joined clean path is a permission
denial or a passed-through lstat error. -/
theorem checkPath_join_err (fs : Fs) (u : Int) (g : List Int) :
    ∀ (cs : List (List Char)), (∀ c ∈ cs, '/' ∉ c) → ∀ (m : Nat) (er : AccessError),
      checkPath fs u g m (joinPath cs) = .error er →
      (∃ pe, er = .perm pe) ∨ (∃ ms, er = .sys ms) := by
  intro cs
  induction cs using List.reverseRecOn with
  | nil =>
    intro hcs m er h
    rw [show joinPath ([] : List (List Char)) = [] from rfl, checkPath_nil] at h
    exact absurd h (by simp)
  | append_singleton ds c ih =>
    intro hcs m er h
    have hc : '/' ∉ c := hcs c (by simp)
    have hds : ∀ d ∈ ds, '/' ∉ d := fun d hd => hcs d (by simp [hd])
    rw [checkPath_snoc fs u g m ds c hc] at h
    rcases except_cases (checkOne fs u g m (joinPath (ds ++ [c]))) with ⟨e, hco⟩ | hco
    · simp only [hco] at h
      cases h
      exact checkOne_err_shape fs u g m (joinPath (ds ++ [c])) er hco
    · simp only [hco] at h
      exact ih hds 1 er h

theorem checkPath_slash_ok_iff (fs : Fs) (u : Int) (g : List Int) (q : List Char) :
    checkPath fs u g 1 (q ++ ['/']) = .ok () ↔
      (nodeOkB fs u g 1 (q ++ ['/']) = true ∧ checkPath fs u g 1 q = .ok ()) := by
  rw [checkPath_slash]
  rcases except_cases (checkOne fs u g 1 (q ++ ['/'])) with ⟨e, hco⟩ | hco
  · simp only [hco]
    have hn := nodeOkB_false_of_checkOne_err fs u g 1 (q ++ ['/']) e hco
    rw [hn]
    simp
  · simp only [hco]
    have hn := (checkOne_ok_iff fs u g 1 (q ++ ['/'])).mp hco
    rw [hn]
    simp

theorem checkPath_slash_err (fs : Fs) (u : Int) (g : List Int) (q : List Char)
    (er : AccessError) (h : checkPath fs u g 1 (q ++ ['/']) = .error er) :
    (∃ pe, er = .perm pe) ∨ (∃ ms, er = .sys ms) ∨
      checkPath fs u g 1 q = .error er := by
  rw [checkPath_slash] at h
  rcases except_cases (checkOne fs u g 1 (q ++ ['/'])) with ⟨e, hco⟩ | hco
  · simp only [hco] at h
    cases h
    rcases checkOne_err_shape fs u g 1 (q ++ ['/']) er hco with h1 | h1
    · exact Or.inl h1
    · exact Or.inr (Or.inl h1)
  · simp only [hco] at h
    exact Or.inr (Or.inr h)


theorem dest1_join_of_good (done : List (List Char)) (hne : done ≠ [])
    (hgood : ∀ c ∈ done, goodComp c) :
    (if isSep ((joinPath done).getLastD '/') = true then joinPath done
     else joinPath done ++ ['/']) = joinPath done ++ ['/'] := by
  rcases List.eq_nil_or_concat done with h | ⟨L, b, hdb⟩
  · exact absurd h hne
  · rw [List.concat_eq_append] at hdb
    subst hdb
    have hb := hgood b (by simp)
    exact dest1_join L b hb.1 hb.2.1

/-- The checks the component walk performs on a clean suffix beyond the
final `checkPath`: for each step, the execute chain on the
separator-terminated resolved prefix and the lstat of the appended
component. -/
def walkOkB (fs : Fs) (u : Int) (g : List Int) :
    List (List Char) → List (List Char) → Bool
  | _, [] => true
  | done, c :: more =>
    nodeOkB fs u g 1 (joinPath done ++ ['/']) && chainOkB fs u g 1 done &&
      (match fs.lstat (joinPath (done ++ [c])) with
       | .ok _ => true
       | .error _ => false) &&
      walkOkB fs u g (done ++ [c]) more

/-- The walk on a clean suffix (no `.`, no `..`, no separators inside
components, no symlinks and only directories at the intermediate nodes):
it succeeds exactly when every per-step check grants, a success resolves to
the join of all components, and every failure is a permission denial or a
passed-through lstat error. -/
theorem walkS_clean (fs : Fs) (u : Int) (g : List Int) :
    ∀ (rest done : List (List Char)) (links : Nat),
      done ≠ [] →
      (∀ c ∈ done, goodComp c) →
      (∀ c ∈ rest, goodComp c) →
      (∀ (k : Nat) (fi : FileInfo), k < rest.length →
        fs.lstat (joinPath (done ++ rest.take (k + 1))) = .ok fi →
        fi.mode &&& ModeSymlink = 0) →
      (∀ (k : Nat) (fi : FileInfo), k + 1 < rest.length →
        fs.lstat (joinPath (done ++ rest.take (k + 1))) = .ok fi →
        fi.mode &&& ModeDir ≠ 0) →
      ((walkS fs u g ['/'] 1 (joinPath rest) (joinPath done) links
          = .ok (joinPath (done ++ rest))
        ↔ walkOkB fs u g done rest = true) ∧
       (∀ d, walkS fs u g ['/'] 1 (joinPath rest) (joinPath done) links = .ok d →
          d = joinPath (done ++ rest)) ∧
       (∀ er, walkS fs u g ['/'] 1 (joinPath rest) (joinPath done) links = .error er →
          (∃ pe, er = .perm pe) ∨ (∃ ms, er = .sys ms))) := by
  intro rest
  induction rest with
  | nil =>
    intro done links hdne hdgood hrgood hns hdir
    rw [show joinPath ([] : List (List Char)) = [] from rfl, walkS_nil]
    refine ⟨?_, ?_, ?_⟩
    · rw [show walkOkB fs u g done [] = true from rfl]
      simp
    · intro d hd
      simp only [List.append_nil]
      exact (Except.ok.inj hd).symm
    · intro er her
      exact absurd her (by simp)
  | cons c more ih =>
    intro done links hdne hdgood hrgood hns hdir
    have hnos : ∀ z ∈ done, '/' ∉ z := fun z hz => (hdgood z hz).2.1
    obtain ⟨hc1, hc2, hc3, hc4⟩ := hrgood c (by simp)
    rw [walkS_step_comp fs u g ['/'] 1 (joinPath done) links c more hc1 hc2 hc3 hc4]
    unfold_let
    rw [dest1_join_of_good done hdne hdgood]
    have hjoin : (joinPath done ++ ['/']) ++ c = joinPath (done ++ [c]) := by
      rw [joinPath_snoc]
      simp
    rw [hjoin]
    rcases except_cases (checkPath fs u g 1 (joinPath done ++ ['/'])) with ⟨e, hS⟩ | hS
    · simp only [hS]
      have hfalse : (nodeOkB fs u g 1 (joinPath done ++ ['/']) &&
          chainOkB fs u g 1 done) = false := by
        rcases Bool.eq_false_or_eq_true (nodeOkB fs u g 1 (joinPath done ++ ['/']) &&
            chainOkB fs u g 1 done) with hb | hb
        case inr => exact hb
        exfalso
        rw [Bool.and_eq_true] at hb
        have hok : checkPath fs u g 1 (joinPath done ++ ['/']) = .ok () := by
          rw [checkPath_slash_ok_iff]
          exact ⟨hb.1, (checkPath_join_ok_iff fs u g done hnos 1).mpr hb.2⟩
        rw [hS] at hok
        exact Except.noConfusion hok
      refine ⟨?_, ?_, ?_⟩
      · constructor
        · intro hcontra
          exact absurd hcontra (by simp)
        · intro hb
          rw [show walkOkB fs u g done (c :: more) =
            (nodeOkB fs u g 1 (joinPath done ++ ['/']) && chainOkB fs u g 1 done &&
              (match fs.lstat (joinPath (done ++ [c])) with
               | .ok _ => true
               | .error _ => false) &&
              walkOkB fs u g (done ++ [c]) more) from rfl] at hb
          rw [Bool.and_eq_true, Bool.and_eq_true] at hb
          obtain ⟨⟨hAB, _⟩, _⟩ := hb
          rw [hAB] at hfalse
          exact Bool.noConfusion hfalse
      · intro d hd
        exact absurd hd (by simp)
      · intro er her
        cases her
        rcases checkPath_slash_err fs u g (joinPath done) e hS with h1 | h1 | h1
        · exact Or.inl h1
        · exact Or.inr h1
        · exact checkPath_join_err fs u g done hnos 1 e h1
    · simp only [hS]
      rcases exceptFi_cases (fs.lstat (joinPath (done ++ [c]))) with ⟨le, hL⟩ | ⟨fi, hL⟩
      · simp only [hL]
        refine ⟨?_, ?_, ?_⟩
        · constructor
          · intro hcontra
            exact absurd hcontra (by simp)
          · intro hb
            rw [show walkOkB fs u g done (c :: more) =
              (nodeOkB fs u g 1 (joinPath done ++ ['/']) && chainOkB fs u g 1 done &&
                (match fs.lstat (joinPath (done ++ [c])) with
                 | .ok _ => true
                 | .error _ => false) &&
                walkOkB fs u g (done ++ [c]) more) from rfl] at hb
            rw [Bool.and_eq_true, Bool.and_eq_true] at hb
            obtain ⟨⟨_, hmatch⟩, _⟩ := hb
            rw [hL] at hmatch
            exact Bool.noConfusion hmatch
        · intro d hd
          exact absurd hd (by simp)
        · intro er her
          cases her
          exact Or.inr ⟨le, rfl⟩
      · simp only [hL]
        have hsymk : fi.mode &&& ModeSymlink = 0 := hns 0 fi (by simp) hL
        rw [if_pos hsymk]
        have hAB : nodeOkB fs u g 1 (joinPath done ++ ['/']) = true ∧
            checkPath fs u g 1 (joinPath done) = .ok () :=
          (checkPath_slash_ok_iff fs u g (joinPath done)).mp hS
        have hchain : chainOkB fs u g 1 done = true :=
          (checkPath_join_ok_iff fs u g done hnos 1).mp hAB.2
        cases more with
        | nil =>
          rw [if_neg (by simp : ¬(fi.mode &&& ModeDir = 0 ∧
            ([] : List (List Char)) ≠ []))]
          rw [show joinPath ([] : List (List Char)) = [] from rfl, walkS_nil]
          refine ⟨?_, ?_, ?_⟩
          · constructor
            · intro _
              rw [show walkOkB fs u g done [c] =
                (nodeOkB fs u g 1 (joinPath done ++ ['/']) && chainOkB fs u g 1 done &&
                  (match fs.lstat (joinPath (done ++ [c])) with
                   | .ok _ => true
                   | .error _ => false) &&
                  walkOkB fs u g (done ++ [c]) []) from rfl]
              rw [hAB.1, hchain]
              simp only [hL]
              rfl
            · intro _
              rfl
          · intro d hd
            exact (Except.ok.inj hd).symm
          · intro er her
            exact absurd her (by simp)
        | cons m1 mrest =>
          have hdirk : fi.mode &&& ModeDir ≠ 0 := hdir 0 fi (by simp) hL
          rw [if_neg (fun hh => hdirk hh.1)]
          have hdgood2 : ∀ z ∈ done ++ [c], goodComp z := by
            intro z hz
            rcases List.mem_append.mp hz with h1 | h1
            · exact hdgood z h1
            · simp at h1
              subst h1
              exact ⟨hc1, hc2, hc3, hc4⟩
          have hns2 : ∀ (k : Nat) (fi : FileInfo), k < (m1 :: mrest).length →
              fs.lstat (joinPath ((done ++ [c]) ++ (m1 :: mrest).take (k + 1))) = .ok fi →
              fi.mode &&& ModeSymlink = 0 := by
            intro k fi2 hk hfi
            refine hns (k + 1) fi2 (by simp at hk ⊢; omega) ?_
            have h1 : (c :: m1 :: mrest).take (k + 1 + 1) =
                c :: (m1 :: mrest).take (k + 1) := rfl
            rw [h1]
            simpa using hfi
          have hdir2 : ∀ (k : Nat) (fi : FileInfo), k + 1 < (m1 :: mrest).length →
              fs.lstat (joinPath ((done ++ [c]) ++ (m1 :: mrest).take (k + 1))) = .ok fi →
              fi.mode &&& ModeDir ≠ 0 := by
            intro k fi2 hk hfi
            refine hdir (k + 1) fi2 (by simp at hk ⊢; omega) ?_
            have h1 : (c :: m1 :: mrest).take (k + 1 + 1) =
                c :: (m1 :: mrest).take (k + 1) := rfl
            rw [h1]
            simpa using hfi
          have ihres := ih (done ++ [c]) links (by simp) hdgood2
            (fun z hz => hrgood z (by simp [hz])) hns2 hdir2
          have hassoc : (done ++ [c]) ++ (m1 :: mrest) = done ++ (c :: m1 :: mrest) := by
            simp
          refine ⟨?_, ?_, ?_⟩
          · rw [show walkOkB fs u g done (c :: m1 :: mrest) =
              (nodeOkB fs u g 1 (joinPath done ++ ['/']) && chainOkB fs u g 1 done &&
                (match fs.lstat (joinPath (done ++ [c])) with
                 | .ok _ => true
                 | .error _ => false) &&
                walkOkB fs u g (done ++ [c]) (m1 :: mrest)) from rfl]
            constructor
            · intro hw
              have hD : walkOkB fs u g (done ++ [c]) (m1 :: mrest) = true := by
                apply ihres.1.mp
                rw [show joinPath ((done ++ [c]) ++ (m1 :: mrest)) =
                  joinPath (done ++ (c :: m1 :: mrest)) from by rw [hassoc]]
                exact hw
              rw [hAB.1, hchain, hD]
              simp only [hL]
              rfl
            · intro hb
              rw [Bool.and_eq_true, Bool.and_eq_true, Bool.and_eq_true] at hb
              obtain ⟨⟨_, _⟩, hD⟩ := hb
              have hw := ihres.1.mpr hD
              rw [hassoc] at hw
              exact hw
          · intro d hd
            have hde := ihres.2.1 d hd
            rw [hassoc] at hde
            exact hde
          · intro er her
            exact ihres.2.2 er her


/-- Build the permission chain from per-prefix grants. -/
theorem chainOkB_of_forall (fs : Fs) (u : Int) (g : List Int) (cs : List (List Char))
    (hall : ∀ k, 1 ≤ k → k < cs.length →
      nodeOkB fs u g 1 (joinPath (cs.take k)) = true) :
    ∀ (j : Nat), j < cs.length → chainOkB fs u g 1 (cs.take j) = true := by
  intro j
  induction j with
  | zero =>
    intro hj
    rw [List.take_zero]
    exact chainOkB_nil fs u g 1
  | succ j ihj =>
    intro hj
    have hjl : j < cs.length := by omega
    have htq : cs.take (j + 1) = cs.take j ++ [cs.get ⟨j, hjl⟩] := by
      rw [List.take_succ]
      congr 1
      rw [List.getElem?_eq_getElem hjl]
      rfl
    rw [htq, chainOkB_snoc, ← htq]
    rw [hall (j + 1) (by omega) hj, ihj hjl]
    rfl

/-- Decompose the permission chain into per-prefix grants. -/
theorem chainOkB_forall (fs : Fs) (u : Int) (g : List Int) :
    ∀ (cs : List (List Char)) (m : Nat),
      chainOkB fs u g m cs = true →
      (∀ k, 1 ≤ k → k < cs.length →
        nodeOkB fs u g 1 (joinPath (cs.take k)) = true) ∧
      (cs ≠ [] → nodeOkB fs u g m (joinPath cs) = true) := by
  intro cs
  induction cs using List.reverseRecOn with
  | nil =>
    intro m h
    refine ⟨fun k hk1 hk2 => ?_, fun hne => absurd rfl hne⟩
    simp at hk2
  | append_singleton ds c ihc =>
    intro m h
    rw [chainOkB_snoc, Bool.and_eq_true] at h
    obtain ⟨hnode, hchain⟩ := h
    have ihds := ihc 1 hchain
    constructor
    · intro k hk1 hk2
      by_cases hkd : k < ds.length
      · rw [List.take_append_of_le_length (by omega)]
        exact ihds.1 k hk1 hkd
      · have hk : k = ds.length := by
          simp at hk2
          omega
        subst hk
        rw [List.take_append_of_le_length (le_refl _), List.take_length]
        refine ihds.2 ?_
        intro hnil
        rw [hnil] at hk1
        simp at hk1
    · intro _
      exact hnode

/-- Assemble the permission chain from the per-prefix grants and the grant
on the full path. -/
theorem chainOkB_build (fs : Fs) (u : Int) (g : List Int) (cs : List (List Char))
    (m : Nat) (hne : cs ≠ [])
    (hall : ∀ k, 1 ≤ k → k < cs.length →
      nodeOkB fs u g 1 (joinPath (cs.take k)) = true)
    (hfinal : nodeOkB fs u g m (joinPath cs) = true) :
    chainOkB fs u g m cs = true := by
  rcases List.eq_nil_or_concat cs with h | ⟨L, b, hdb⟩
  · exact absurd h hne
  · rw [List.concat_eq_append] at hdb
    subst hdb
    rw [chainOkB_snoc, hfinal]
    by_cases hL0 : L = []
    · subst hL0
      rw [chainOkB_nil]
      rfl
    · have hlen : 0 < L.length := List.length_pos.mpr hL0
      have := chainOkB_of_forall fs u g (L ++ [b]) hall L.length (by simp)
      rw [List.take_append_of_le_length (le_refl _), List.take_length] at this
      rw [this]
      rfl

/-- Assemble the per-step walk checks from per-prefix grants, the
separator-form lstat consistency and the existence of the final node. -/
theorem walkOkB_of_forall (fs : Fs) (u : Int) (g : List Int) (cs : List (List Char))
    (hsl : ∀ k, 1 ≤ k → k < cs.length →
      fs.lstat (joinPath (cs.take k) ++ ['/']) = fs.lstat (joinPath (cs.take k)))
    (hall : ∀ k, 1 ≤ k → k < cs.length →
      nodeOkB fs u g 1 (joinPath (cs.take k)) = true)
    (hfin : ∃ fi, fs.lstat (joinPath cs) = .ok fi) :
    ∀ (rest done : List (List Char)), done ≠ [] → done ++ rest = cs →
      walkOkB fs u g done rest = true := by
  intro rest
  induction rest with
  | nil =>
    intro done h1 h2
    rfl
  | cons c more ihw =>
    intro done hdne hsplit
    have hdpos : 1 ≤ done.length := by
      cases done with
      | nil => exact absurd rfl hdne
      | cons z zs => simp
    have hdlen : done.length < cs.length := by
      rw [← hsplit]
      simp
    have htake : cs.take done.length = done := by
      rw [← hsplit]
      exact List.take_left done (c :: more)
    have hplain : nodeOkB fs u g 1 (joinPath done) = true := by
      have := hall done.length hdpos hdlen
      rwa [htake] at this
    have hslash : nodeOkB fs u g 1 (joinPath done ++ ['/']) = true := by
      have hc := hsl done.length hdpos hdlen
      rw [htake] at hc
      rw [nodeOkB_congr fs u g 1 (joinPath done ++ ['/']) (joinPath done) hc]
      exact hplain
    have hB : chainOkB fs u g 1 done = true := by
      have := chainOkB_of_forall fs u g cs hall done.length hdlen
      rwa [htake] at this
    have htake1 : cs.take (done.length + 1) = done ++ [c] := by
      rw [← hsplit, List.take_append_eq_append_take,
        List.take_all_of_le (by omega)]
      congr 1
      rw [show done.length + 1 - done.length = 1 from by omega]
      rfl
    have hC : ∃ fi, fs.lstat (joinPath (done ++ [c])) = .ok fi := by
      by_cases hmore : done.length + 1 < cs.length
      · have := hall (done.length + 1) (by omega) hmore
        rw [htake1] at this
        exact nodeOkB_lstat fs u g 1 (joinPath (done ++ [c])) this
      · have hlen2 : cs.length = done.length + 1 + more.length := by
          rw [← hsplit]
          simp
          omega
        have hm0 : more = [] := by
          have : more.length = 0 := by omega
          exact List.eq_nil_of_length_eq_zero this
        subst hm0
        have hcseq : done ++ [c] = cs := hsplit
        rw [hcseq]
        exact hfin
    obtain ⟨fic, hfic⟩ := hC
    have hD : walkOkB fs u g (done ++ [c]) more = true := by
      refine ihw (done ++ [c]) (by simp) ?_
      rw [← hsplit]
      simp
    rw [show walkOkB fs u g done (c :: more) =
      (nodeOkB fs u g 1 (joinPath done ++ ['/']) && chainOkB fs u g 1 done &&
        (match fs.lstat (joinPath (done ++ [c])) with
         | .ok _ => true
         | .error _ => false) &&
        walkOkB fs u g (done ++ [c]) more) from rfl]
    rw [hslash, hB, hD]
    simp only [hfic]
    rfl

/-- For a nonzero uid, a single-node grant is exactly: the lstat succeeds
and the owner clause, the group clause or the other clause of the classic
permission test holds. -/
theorem nodeOk_iff_grant (fs : Fs) (u : Int) (g : List Int) (m : Nat) (p : List Char)
    (hu : u ≠ 0) :
    nodeOkB fs u g m p = true ↔
      ∃ fi, fs.lstat p = .ok fi ∧
        ((fi.mode &&& (m <<< 6) = m <<< 6 ∧ uint32OfInt u = fi.uid) ∨
         (fi.mode &&& (m <<< 3) = m <<< 3 ∧ contains g (Int.ofNat fi.gid) = true) ∨
         fi.mode &&& m = m) := by
  unfold nodeOkB
  rcases exceptFi_cases (fs.lstat p) with ⟨e, hl⟩ | ⟨fi, hl⟩
  · simp only [hl]
    constructor
    · intro hcontra
      exact absurd hcontra (by simp)
    · rintro ⟨fi, hfi, _⟩
      exact absurd hfi (by simp)
  · simp only [hl]
    rw [Bool.not_eq_true', denied_eq_false_iff u g m fi.mode fi.uid fi.gid hu]
    constructor
    · intro hp
      exact ⟨fi, rfl, hp⟩
    · rintro ⟨fi2, hfi2, hp⟩
      cases hfi2
      exact hp


/-- C1 counterexample filesystem: `/f` has no permission bits at all. -/
def cexC1 : Fs where
  lstat p :=
    if p = ['/'] then .ok ⟨ModeDir, 5, 5⟩
    else if p = ['/', 'f'] then .ok ⟨0, 5, 5⟩
    else .error ['n']
  readlink _ := .error ['n']

/-- Claim C1, as stated, is false for the superuser: for uid 0 `access`
succeeds on a clean symlink-free path whose final component grants the
requested mode to nobody (no owner/group/other clause holds), because the
permission test is guarded by `uid != 0` (`access.go` line 124). -/
theorem claim1_counterexample :
    access cexC1 0 [] 4 ['/', 'f'] = .ok () ∧
      cexC1.lstat ['/', 'f'] = .ok ⟨0, 5, 5⟩ ∧
      ¬(((0 : Nat) &&& (4 <<< 6) = 4 <<< 6 ∧ uint32OfInt 0 = 5) ∨
        ((0 : Nat) &&& (4 <<< 3) = 4 <<< 3 ∧ contains [] (Int.ofNat 5) = true) ∨
        (0 : Nat) &&& 4 = 4) := by
  refine ⟨?_, rfl, by decide⟩
  exact accessF_sound cexC1 0 [] 4 ['/', 'f'] 20 (.ok ()) (by rfl)

/-- C1 amended (restricted to principals with `uid ≠ 0`, on a filesystem
where the intermediate nodes are non-symlink directories answering the
separator-terminated queries consistently): `access` on the clean absolute
path `/c1/.../cn` succeeds iff the root grants execute, every proper
prefix grants execute, and the full path grants the requested mode; every
failure is a permission denial or a passed-through lstat error; and (for
`uid ≠ 0`) a single-node grant is exactly the classic owner/group/other
test on the lstat result. -/
theorem claim1_theorem (fs : Fs) (uid : Int) (g : List Int) (mode : Nat)
    (cs : List (List Char)) (hne : cs ≠ []) (hgood : ∀ c ∈ cs, goodComp c)
    (hu : uid ≠ 0)
    (hns : ∀ (k : Nat) (fi : FileInfo), k < cs.length →
      fs.lstat (joinPath (cs.take (k + 1))) = .ok fi → fi.mode &&& ModeSymlink = 0)
    (hdir : ∀ (k : Nat) (fi : FileInfo), k + 1 < cs.length →
      fs.lstat (joinPath (cs.take (k + 1))) = .ok fi → fi.mode &&& ModeDir ≠ 0)
    (hsl : ∀ (k : Nat), 1 ≤ k → k < cs.length →
      fs.lstat (joinPath (cs.take k) ++ ['/']) = fs.lstat (joinPath (cs.take k))) :
    ((access fs uid g mode (joinPath cs) = .ok () ↔
      (nodeOkB fs uid g 1 ['/'] = true ∧
       (∀ k, 1 ≤ k → k < cs.length →
         nodeOkB fs uid g 1 (joinPath (cs.take k)) = true) ∧
       nodeOkB fs uid g mode (joinPath cs) = true)) ∧
     (∀ er, access fs uid g mode (joinPath cs) = .error er →
       (∃ pe, er = .perm pe) ∨ (∃ ms, er = .sys ms))) ∧
    (∀ (m : Nat) (p : List Char), nodeOkB fs uid g m p = true ↔
      ∃ fi, fs.lstat p = .ok fi ∧
        ((fi.mode &&& (m <<< 6) = m <<< 6 ∧ uint32OfInt uid = fi.uid) ∨
         (fi.mode &&& (m <<< 3) = m <<< 3 ∧ contains g (Int.ofNat fi.gid) = true) ∨
         fi.mode &&& m = m)) := by
  refine ⟨?_, fun m p => nodeOk_iff_grant fs uid g m p hu⟩
  cases cs with
  | nil => exact absurd rfl hne
  | cons c1 rest =>
  obtain ⟨h11, h12, h13, h14⟩ := hgood c1 (by simp)
  have hnos : ∀ z ∈ c1 :: rest, '/' ∉ z := fun z hz => (hgood z hz).2.1
  rw [access_join fs uid g mode c1 rest]
  rw [walkS_step_comp fs uid g ['/'] 1 ['/'] 0 c1 rest h11 h12 h13 h14]
  unfold_let
  have hd1 : (if isSep (List.getLastD ['/'] '/') = true then ['/'] else ['/'] ++ ['/'])
      = (['/'] : List Char) := by decide
  rw [hd1]
  have hja : (['/'] : List Char) ++ c1 = joinPath [c1] := by simp [joinPath]
  rw [hja]
  rcases except_cases (checkPath fs uid g 1 ['/']) with ⟨e, hR⟩ | hR
  · simp only [hR]
    refine ⟨?_, ?_⟩
    · constructor
      · intro hcontra
        exact absurd hcontra (by simp)
      · rintro ⟨hroot, _, _⟩
        exfalso
        have hok := (checkOne_ok_iff fs uid g 1 ['/']).mpr hroot
        rw [checkPath_root] at hR
        rw [hok] at hR
        exact Except.noConfusion hR
    · intro er her
      cases her
      rw [checkPath_root] at hR
      exact checkOne_err_shape fs uid g 1 ['/'] _ hR
  · simp only [hR]
    have hroot : nodeOkB fs uid g 1 ['/'] = true := by
      rw [checkPath_root] at hR
      exact (checkOne_ok_iff fs uid g 1 ['/']).mp hR
    rcases exceptFi_cases (fs.lstat (joinPath [c1])) with ⟨le, hL1⟩ | ⟨f1, hL1⟩
    · simp only [hL1]
      refine ⟨?_, ?_⟩
      · constructor
        · intro hcontra
          exact absurd hcontra (by simp)
        · rintro ⟨_, hall, hfinal⟩
          exfalso
          cases rest with
          | nil =>
            obtain ⟨fi, hfi⟩ := nodeOkB_lstat fs uid g mode (joinPath [c1]) hfinal
            rw [hfi] at hL1
            exact Except.noConfusion hL1
          | cons m1 mrest =>
            have h1 := hall 1 (by omega) (by simp)
            obtain ⟨fi, hfi⟩ :=
              nodeOkB_lstat fs uid g 1 (joinPath ((c1 :: m1 :: mrest).take 1)) h1
            rw [show (c1 :: m1 :: mrest).take 1 = [c1] from rfl] at hfi
            rw [hfi] at hL1
            exact Except.noConfusion hL1
      · intro er her
        cases her
        exact Or.inr ⟨le, rfl⟩
    · simp only [hL1]
      have hsym1 : f1.mode &&& ModeSymlink = 0 := hns 0 f1 (by simp) hL1
      rw [if_pos hsym1]
      cases rest with
      | nil =>
        rw [if_neg (by simp : ¬(f1.mode &&& ModeDir = 0 ∧
          ([] : List (List Char)) ≠ []))]
        rw [show joinPath ([] : List (List Char)) = [] from rfl, walkS_nil]
        have hred : (match (.ok (joinPath [c1]) : Except AccessError (List Char)) with
            | .error e => (.error e : Except AccessError Unit)
            | .ok dest => checkPath fs uid g mode dest) =
            checkPath fs uid g mode (joinPath [c1]) := rfl
        rw [hred]
        refine ⟨?_, ?_⟩
        · constructor
          · intro hchk
            have hcc := (checkPath_join_ok_iff fs uid g [c1] hnos mode).mp hchk
            have hforall := chainOkB_forall fs uid g [c1] mode hcc
            exact ⟨hroot, fun k hk1 hk2 => False.elim (by simp at hk2; omega),
              hforall.2 (by simp)⟩
          · rintro ⟨_, _, hfinal⟩
            refine (checkPath_join_ok_iff fs uid g [c1] hnos mode).mpr ?_
            exact chainOkB_build fs uid g [c1] mode (by simp)
              (fun k hk1 hk2 => False.elim (by simp at hk2; omega)) hfinal
        · intro er her
          exact checkPath_join_err fs uid g [c1] hnos mode er her
      | cons m1 mrest =>
        have hdir1 : f1.mode &&& ModeDir ≠ 0 := hdir 0 f1 (by simp) hL1
        rw [if_neg (fun hh => hdir1 hh.1)]
        have hns2 : ∀ (k : Nat) (fi : FileInfo), k < (m1 :: mrest).length →
            fs.lstat (joinPath ([c1] ++ (m1 :: mrest).take (k + 1))) = .ok fi →
            fi.mode &&& ModeSymlink = 0 := by
          intro k fi hk hfi
          refine hns (k + 1) fi (by simp at hk ⊢; omega) ?_
          have h1 : (c1 :: m1 :: mrest).take (k + 1 + 1) =
              c1 :: (m1 :: mrest).take (k + 1) := rfl
          rw [h1]
          simpa using hfi
        have hdir2 : ∀ (k : Nat) (fi : FileInfo), k + 1 < (m1 :: mrest).length →
            fs.lstat (joinPath ([c1] ++ (m1 :: mrest).take (k + 1))) = .ok fi →
            fi.mode &&& ModeDir ≠ 0 := by
          intro k fi hk hfi
          refine hdir (k + 1) fi (by simp at hk ⊢; omega) ?_
          have h1 : (c1 :: m1 :: mrest).take (k + 1 + 1) =
              c1 :: (m1 :: mrest).take (k + 1) := rfl
          rw [h1]
          simpa using hfi
        obtain ⟨hiff, huniq, herr⟩ := walkS_clean fs uid g (m1 :: mrest) [c1] 0 (by simp)
          (fun z hz => by
            simp at hz
            subst hz
            exact ⟨h11, h12, h13, h14⟩)
          (fun z hz => hgood z (by simp [hz]))
          hns2 hdir2
        cases hw : walkS fs uid g ['/'] 1 (joinPath (m1 :: mrest)) (joinPath [c1]) 0 with
        | error e =>
          have hredE : (match (.error e : Except AccessError (List Char)) with
              | .error e => (.error e : Except AccessError Unit)
              | .ok dest => checkPath fs uid g mode dest) =
              (.error e : Except AccessError Unit) := rfl
          rw [hredE]
          refine ⟨?_, ?_⟩
          · constructor
            · intro hcontra
              exact absurd hcontra (by simp)
            · rintro ⟨_, hall, hfinal⟩
              exfalso
              have hfin : ∃ fi, fs.lstat (joinPath (c1 :: m1 :: mrest)) = .ok fi :=
                nodeOkB_lstat fs uid g mode (joinPath (c1 :: m1 :: mrest)) hfinal
              have hwok := walkOkB_of_forall fs uid g (c1 :: m1 :: mrest) hsl hall hfin
                (m1 :: mrest) [c1] (by simp) rfl
              have hok := hiff.mpr hwok
              rw [hw] at hok
              exact Except.noConfusion hok
          · intro er her
            cases her
            exact herr _ hw
        | ok d =>
          have hd := huniq d hw
          subst hd
          have hredok : (match (.ok (joinPath ([c1] ++ m1 :: mrest)) :
              Except AccessError (List Char)) with
              | .error e => (.error e : Except AccessError Unit)
              | .ok dest => checkPath fs uid g mode dest) =
              checkPath fs uid g mode (joinPath ([c1] ++ m1 :: mrest)) := rfl
          rw [hredok]
          have hjcs : ([c1] ++ m1 :: mrest : List (List Char)) = c1 :: m1 :: mrest := rfl
          rw [hjcs]
          refine ⟨?_, ?_⟩
          · constructor
            · intro hchk
              have hcc :=
                (checkPath_join_ok_iff fs uid g (c1 :: m1 :: mrest) hnos mode).mp hchk
              have hforall := chainOkB_forall fs uid g (c1 :: m1 :: mrest) mode hcc
              exact ⟨hroot, hforall.1, hforall.2 (by simp)⟩
            · rintro ⟨_, hall, hfinal⟩
              refine (checkPath_join_ok_iff fs uid g (c1 :: m1 :: mrest) hnos mode).mpr ?_
              exact chainOkB_build fs uid g (c1 :: m1 :: mrest) mode (by simp) hall hfinal
          · intro er her
            exact checkPath_join_err fs uid g (c1 :: m1 :: mrest) hnos mode er her

/-- C1 witness filesystem: `/a` is an executable directory (answering the
`/a/` query consistently) and `/a/b` is readable by everyone. -/
def cexC1w : Fs where
  lstat p :=
    if p = ['/'] then .ok ⟨1, 0, 0⟩
    else if p = ['/', 'a'] then .ok ⟨ModeDir + 1, 0, 0⟩
    else if p = ['/', 'a', '/'] then .ok ⟨ModeDir + 1, 0, 0⟩
    else if p = ['/', 'a', '/', 'b'] then .ok ⟨4, 0, 0⟩
    else .error ['n']
  readlink _ := .error ['n']

theorem claim1_witness :
    access cexC1w 1 [1] 4 (joinPath [['a'], ['b']]) = .ok () := by
  have h := claim1_theorem cexC1w 1 [1] 4 [['a'], ['b']] (by simp)
    (by
      intro c hc
      simp at hc
      rcases hc with h | h <;> subst h <;>
        exact ⟨by decide, by decide, by decide, by decide⟩)
    (by decide)
    (by
      intro k fi hk hfi
      have hk2 : k < 2 := hk
      rcases k with _ | k
      · have e0 : cexC1w.lstat ['/', 'a'] = .ok ⟨ModeDir + 1, 0, 0⟩ := rfl
        have hv := Except.ok.inj (e0.symm.trans hfi)
        cases hv
        decide
      · rcases k with _ | k
        · have e1 : cexC1w.lstat ['/', 'a', '/', 'b'] = .ok ⟨4, 0, 0⟩ := rfl
          have hv := Except.ok.inj (e1.symm.trans hfi)
          cases hv
          decide
        · omega)
    (by
      intro k fi hk hfi
      have hk2 : k + 1 < 2 := hk
      rcases k with _ | k
      · have e0 : cexC1w.lstat ['/', 'a'] = .ok ⟨ModeDir + 1, 0, 0⟩ := rfl
        have hv := Except.ok.inj (e0.symm.trans hfi)
        cases hv
        decide
      · omega)
    (by
      intro k hk1 hk2
      have hk3 : k < 2 := hk2
      rcases k with _ | k
      · omega
      · rcases k with _ | k
        · rfl
        · omega)
  refine h.1.1.mpr ⟨rfl, ?_, rfl⟩
  intro k hk1 hk2
  have hk3 : k < 2 := hk2
  rcases k with _ | k
  · omega
  · rcases k with _ | k
    · rfl
    · omega

end GoAccess
